import Mathlib

/-!
Shallow embedding of the prefer-const-enum analysis
(`src/rules/preferConstEnumRule.ts`).

The analysis walks a syntax tree once, tracking for every enum name a
record (`IEnum`) with the fields of the source's `IEnum` interface, and
after the walk reports, for every non-const enum that can be const, one
finding per declaration occurrence.
-/

namespace PreferConstEnum

/-- Syntax tree nodes: the node shapes the rule distinguishes.  `other`
models every node kind the rule treats generically (the callbacks just
recurse into its children, in source order).  `propAccess` keeps the
member name as a string; the walk materialises it as an identifier node
where TypeScript's `forEachChild` would visit the name identifier. -/
inductive Node where
  | ident (text : String)
  | stringLit (text : String)
  | numLit (value : Int)
  | propAccess (expression : Node) (name : String)
  | elemAccess (expression : Node) (argumentExpression : Option Node)
  | exportAssignment (expression : Node)
  | enumDecl (name : String) (hasConstModifier hasExportModifier : Bool)
      (members : List (String × Option Node)) (declStart nameEnd : Nat)
  | other (children : List Node)
  deriving Repr

mutual
/-- Structural equality of nodes, standing in for the reference identity
test `parent.expression === node` (in every position the rule tests it,
the two coincide). -/
def beqNode : Node → Node → Bool
  | .ident a, .ident b => a == b
  | .stringLit a, .stringLit b => a == b
  | .numLit a, .numLit b => a == b
  | .propAccess e1 n1, .propAccess e2 n2 => beqNode e1 e2 && n1 == n2
  | .elemAccess e1 a1, .elemAccess e2 a2 => beqNode e1 e2 && beqOpt a1 a2
  | .exportAssignment e1, .exportAssignment e2 => beqNode e1 e2
  | .enumDecl n1 c1 x1 m1 s1 e1, .enumDecl n2 c2 x2 m2 s2 e2 =>
      n1 == n2 && c1 == c2 && x1 == x2 && beqMembers m1 m2 && s1 == s2 && e1 == e2
  | .other cs1, .other cs2 => beqList cs1 cs2
  | _, _ => false
termination_by structural n _ => n

/-- Structural equality on optional nodes. -/
def beqOpt : Option Node → Option Node → Bool
  | none, none => true
  | some a, some b => beqNode a b
  | _, _ => false

/-- Structural equality on node lists. -/
def beqList : List Node → List Node → Bool
  | [], [] => true
  | a :: as, b :: bs => beqNode a b && beqList as bs
  | _, _ => false

/-- Structural equality on enum member lists. -/
def beqMembers : List (String × Option Node) → List (String × Option Node) → Bool
  | [], [] => true
  | (n1, i1) :: ms1, (n2, i2) :: ms2 => n1 == n2 && beqOpt i1 i2 && beqMembers ms1 ms2
  | _, _ => false
end

/-- Tracking structure, one per distinct enum name (source `IEnum`). -/
structure IEnum where
  name : String
  isConst : Bool
  occurences : List Node
  members : List (String × Bool)
  canBeConst : Bool
  deriving Repr

/-- JS `Map.get` on the member map. -/
def mget (m : List (String × Bool)) (k : String) : Option Bool :=
  match m.find? (fun p => p.1 == k) with
  | some p => some p.2
  | none => none

/-- JS `Map.set` on the member map: overwrite in place or append. -/
def mset (m : List (String × Bool)) (k : String) (v : Bool) : List (String × Bool) :=
  if (m.find? (fun p => p.1 == k)).isSome then
    m.map (fun p => if p.1 == k then (k, v) else p)
  else
    m ++ [(k, v)]

/-- Truthiness of `m.get(k)` in JS: `undefined` counts as false. -/
def memTrue (m : List (String × Bool)) (k : String) : Bool :=
  (mget m k).getD false

/-- The `_enums` map, in insertion order. -/
abbrev Registry := List IEnum

/-- Source `_getEnumInScope`: look an enum up by name. -/
def getEnum (reg : Registry) (name : String) : Option IEnum :=
  reg.find? (fun t => t.name == name)

/-- In-place mutation of the tracking structure stored under `name`. -/
def updateEnum (reg : Registry) (name : String) (f : IEnum → IEnum) : Registry :=
  reg.map (fun t => if t.name == name then f t else t)

/-- Source `_addEnum`: create the tracking structure on first sight of a
name (with `canBeConst` true) and push the declaration onto its
occurrence list. -/
def addEnum (reg : Registry) (node : Node) : Registry :=
  match node with
  | .enumDecl name hasConstModifier _ _ _ _ =>
    match getEnum reg name with
    | some _ => updateEnum reg name (fun t => { t with occurences := t.occurences ++ [node] })
    | none => reg ++ [{ name := name, isConst := hasConstModifier, occurences := [node],
                        members := [], canBeConst := true }]
  | _ => reg

/-- The identifier case of the evaluator's callback: constant iff the
enclosing enum's member map holds a true entry for the text. -/
def evalIdent (members : List (String × Bool)) (text : String) (reg : Registry)
    (isConst : Bool) : Registry × Bool :=
  if memTrue members text then (reg, isConst) else (reg, false)

/-- The evaluator's safe property access test: the base is a plain
identifier naming a tracked enum and the accessed member is already
known constant. -/
def propSafe (reg : Registry) (e : Node) (name : String) : Bool :=
  match e with
  | .ident etext =>
    match getEnum reg etext with
    | some track => memTrue track.members name
    | none => false
  | _ => false

/-- The evaluator's safe indexed access test: the base is a plain
identifier naming a tracked enum and the argument is a string literal
naming a member already known constant. -/
def elemSafe (reg : Registry) (e : Node) (arg : Option Node) : Bool :=
  match e, arg with
  | .ident etext, some (.stringLit s) =>
    match getEnum reg etext with
    | some track => memTrue track.members s
    | none => false
  | _, _ => false

/-- The side effect of an unsafe indexed access: when the base is an
identifier naming a tracked enum and the argument is not a string
literal, that enum's `canBeConst` is cleared; a string-literal argument
(even one naming no constant member) has no side effect. -/
def elemInvalidate (reg : Registry) (e : Node) (arg : Option Node) : Registry :=
  match e, arg with
  | .ident _, some (.stringLit _) => reg
  | .ident etext, _ =>
    match getEnum reg etext with
    | some _ => updateEnum reg etext (fun t => { t with canBeConst := false })
    | none => reg
  | _, _ => reg

mutual
/-- Source `_isConstInitializer`'s callback `cb`, threading the captured
mutable `isConst` flag and the enum registry (mutated when a dynamic
indexed access disqualifies a tracked enum). -/
def evalCb (members : List (String × Bool)) (current : Node) (reg : Registry)
    (isConst : Bool) : Registry × Bool :=
  match current with
  | .ident text => evalIdent members text reg isConst
  | .propAccess e name =>
      if propSafe reg e name then (reg, isConst)
      else
        -- not a resolved constant member access: flag non-constant and
        -- descend into the children (base expression, then name identifier)
        let r1 := evalCb members e reg false
        evalIdent members name r1.1 r1.2
  | .elemAccess e arg =>
      if elemSafe reg e arg then (reg, isConst)
      else
        let r1 := evalCb members e (elemInvalidate reg e arg) false
        match arg with
        | some a => evalCb members a r1.1 r1.2
        | none => r1
  | .stringLit _ => (reg, isConst)
  | .numLit _ => (reg, isConst)
  | .exportAssignment e => evalCb members e reg isConst
  -- an enum declaration never occurs in expression position
  | .enumDecl _ _ _ _ _ _ => (reg, isConst)
  | .other cs => evalList members cs reg isConst

/-- Iteration of `ts.forEachChild` over a generic node's children
inside the evaluator's callback. -/
def evalList (members : List (String × Bool)) (cs : List Node) (reg : Registry)
    (isConst : Bool) : Registry × Bool :=
  match cs with
  | [] => (reg, isConst)
  | c :: rest =>
      let r1 := evalCb members c reg isConst
      evalList members rest r1.1 r1.2
end

/-- Source `_isConstInitializer`: run the callback with `isConst`
starting at true. -/
def isConstInitializer (reg : Registry) (init : Node) (members : List (String × Bool)) :
    Registry × Bool :=
  evalCb members init reg true

/-- Computation of one member's `isConstMember` value: trivially true
for an already-const enum or a member without an expression, otherwise
decided by the evaluator (whose registry side effects are kept). -/
def memberConst (reg : Registry) (track : IEnum) (init? : Option Node) : Registry × Bool :=
  if track.isConst then (reg, true)
  else
    match init? with
    | none => (reg, true)
    | some init => isConstInitializer reg init track.members

/-- One iteration of `visitEnumDeclaration`'s member loop: compute
`isConstMember`, AND it into `canBeConst` and record it in the member
map. -/
def processMember (reg : Registry) (enumName : String) (m : String × Option Node) : Registry :=
  match getEnum reg enumName with
  | none => reg
  | some track =>
    let r1 := memberConst reg track m.2
    updateEnum r1.1 enumName (fun t =>
      { t with canBeConst := t.canBeConst && r1.2,
               members := mset t.members m.1 r1.2 })

/-- Source `visitEnumDeclaration`: register the declaration, process its
members in order, then clear `canBeConst` when the declaration is
exported. -/
def visitEnumDeclaration (reg : Registry) (node : Node) : Registry :=
  match node with
  | .enumDecl name _ hasExportModifier members _ _ =>
    let reg1 := addEnum reg node
    let reg2 := members.foldl (fun r m => processMember r name m) reg1
    updateEnum reg2 name (fun t => { t with canBeConst := t.canBeConst && !hasExportModifier })
  | _ => reg

/-- Source `_checkUsage`: skip identifiers sitting under a property
access, under an export assignment, or as the base of an indexed access
with a string-literal argument (`parent = none` models an identifier
whose parent is the source file itself). -/
def usageSkip (node : Node) (parent : Option Node) : Bool :=
  match parent with
  | some (.propAccess _ _) => true
  | some (.exportAssignment _) => true
  | some (.elemAccess e (some (.stringLit _))) => beqNode e node
  | _ => false

/-- Body of `_checkUsage` past the early return: an identifier whose
text names a tracked enum clears that enum permanently. -/
def usageClear (node : Node) (reg : Registry) : Registry :=
  match node with
  | .ident text =>
    match getEnum reg text with
    | some _ => updateEnum reg text (fun t => { t with canBeConst := false })
    | none => reg
  | _ => reg

/-- Source `_checkUsage` proper: skip or clear. -/
def checkUsage (node : Node) (parent : Option Node) (reg : Registry) : Registry :=
  if usageSkip node parent then reg
  else usageClear node reg

mutual
/-- The walk's callback `cb`: identifiers go to `checkUsage`, enum
declarations to `visitEnumDeclaration` (no further descent in either
case), any other node recurses into its children in source order.  Where
`forEachChild` would hand `cb` the name identifier of a property access,
the identifier is materialised and — being an identifier — handled by
`checkUsage` directly. -/
def cbW (parent : Option Node) (node : Node) (reg : Registry) : Registry :=
  match node with
  | .ident _ => checkUsage node parent reg
  | .enumDecl _ _ _ _ _ _ => visitEnumDeclaration reg node
  | .stringLit _ => reg
  | .numLit _ => reg
  | .propAccess e name =>
      checkUsage (.ident name) (some node) (cbW (some node) e reg)
  | .elemAccess e arg =>
      let reg1 := cbW (some node) e reg
      match arg with
      | some a => cbW (some node) a reg1
      | none => reg1
  | .exportAssignment e => cbW (some node) e reg
  | .other cs => cbWList node cs reg

/-- Iteration of `ts.forEachChild` over a generic node's children
during the walk. -/
def cbWList (parentNode : Node) (cs : List Node) (reg : Registry) : Registry :=
  match cs with
  | [] => reg
  | c :: rest => cbWList parentNode rest (cbW (some parentNode) c reg)
end

/-- The failure message of the rule. -/
def FAIL_MESSAGE : String := "enum can be declared const"

/-- A text edit: replace `length` characters at `start` with `text`. -/
structure Replacement where
  start : Nat
  length : Nat
  text : String
  deriving Repr, DecidableEq

/-- One reported failure with its fix. -/
structure Finding where
  start : Nat
  endPos : Nat
  message : String
  fix : Replacement
  deriving Repr, DecidableEq

/-- Start offset of an enum declaration node. -/
def declStart : Node → Nat
  | .enumDecl _ _ _ _ s _ => s
  | _ => 0

/-- End offset of an enum declaration's name token. -/
def declNameEnd : Node → Nat
  | .enumDecl _ _ _ _ _ e => e
  | _ => 0

/-- The failure the rule adds for one occurrence: range from declaration
start to the end of the name, with a fix inserting `const ` at the
start. -/
def mkFinding (occ : Node) : Finding :=
  { start := declStart occ, endPos := declNameEnd occ, message := FAIL_MESSAGE,
    fix := { start := declStart occ, length := 0, text := "const " } }

/-- The `_enums.forEach` loop at the end of `walk`: report every
occurrence of every non-const enum that can still be const. -/
def emit (reg : Registry) : List Finding :=
  reg.foldl (fun acc track =>
    if !track.isConst && track.canBeConst then
      acc ++ track.occurences.map mkFinding
    else acc) []

/-- The traversal part of `walk`: run the callback over the source
file's top-level children. -/
def walkAll (sourceFile : List Node) : Registry :=
  sourceFile.foldl (fun reg n => cbW none n reg) []

/-- Source `walk`: one traversal, then emission. -/
def run (sourceFile : List Node) : Registry × List Finding :=
  let reg := walkAll sourceFile
  (reg, emit reg)

/-- Final `canBeConst` value recorded for `name`, when tracked. -/
def getCBC (reg : Registry) (name : String) : Option Bool :=
  (getEnum reg name).map (fun t => t.canBeConst)

mutual
/-- No node in this subtree can disqualify the enum named `a`: every
identifier outside enum declarations has different text, and every
declaration of `a` in the subtree carries no member expressions, no
export modifier and no const modifier.  (Identifiers inside member
expressions are also constrained; property-access member names are not,
since they never act as usage sites.) -/
def noDisq (a : String) : Node → Bool
  | .ident t => !(t == a)
  | .stringLit _ => true
  | .numLit _ => true
  | .propAccess e _ => noDisq a e
  | .elemAccess e arg => noDisq a e && noDisqOpt a arg
  | .exportAssignment e => noDisq a e
  | .enumDecl n c x ms _ _ =>
      (if n == a then (!c && !x && ms.all (fun m => (m.2).isNone)) else true)
        && noDisqMembers a ms
  | .other cs => noDisqList a cs
termination_by structural n => n

/-- Predicate `noDisq` on an optional node. -/
def noDisqOpt (a : String) : Option Node → Bool
  | none => true
  | some n => noDisq a n

/-- Predicate `noDisq` on a node list. -/
def noDisqList (a : String) : List Node → Bool
  | [] => true
  | c :: rest => noDisq a c && noDisqList a rest

/-- Predicate `noDisq` on an enum member list (checks the member
expressions). -/
def noDisqMembers (a : String) : List (String × Option Node) → Bool
  | [] => true
  | m :: rest => noDisqOpt a (m.2) && noDisqMembers a rest
end

mutual
/-- Nesting depth of an expression, bounding the evaluator's recursion. -/
def depthE : Node → Nat
  | .ident _ => 1
  | .stringLit _ => 1
  | .numLit _ => 1
  | .propAccess e _ => depthE e + 1
  | .elemAccess e arg => max (depthE e) (depthOptE arg) + 1
  | .exportAssignment e => depthE e + 1
  | .enumDecl _ _ _ _ _ _ => 1
  | .other cs => depthListE cs + 1
termination_by structural n => n

/-- Depth of an optional node. -/
def depthOptE : Option Node → Nat
  | none => 0
  | some n => depthE n

/-- Maximal depth over a node list. -/
def depthListE : List Node → Nat
  | [] => 0
  | c :: rest => max (depthE c) (depthListE rest)
end

mutual
/-- Fuel-bounded version of the evaluator's callback: `none` models a
run that would need recursion deeper than the supplied bound. -/
def evalCbFuel : Nat → List (String × Bool) → Node → Registry → Bool →
    Option (Registry × Bool)
  | 0, _, _, _, _ => none
  | fuel + 1, members, current, reg, isConst =>
    match current with
    | .ident text => some (evalIdent members text reg isConst)
    | .propAccess e name =>
        if propSafe reg e name then some (reg, isConst)
        else
          match evalCbFuel fuel members e reg false with
          | none => none
          | some r1 => some (evalIdent members name r1.1 r1.2)
    | .elemAccess e arg =>
        if elemSafe reg e arg then some (reg, isConst)
        else
          match evalCbFuel fuel members e (elemInvalidate reg e arg) false with
          | none => none
          | some r1 =>
            match arg with
            | some a => evalCbFuel fuel members a r1.1 r1.2
            | none => some r1
    | .stringLit _ => some (reg, isConst)
    | .numLit _ => some (reg, isConst)
    | .exportAssignment e => evalCbFuel fuel members e reg isConst
    | .enumDecl _ _ _ _ _ _ => some (reg, isConst)
    | .other cs => evalListFuel fuel members cs reg isConst
termination_by fuel _ _ _ _ => (fuel, 0)

/-- Fuel-bounded child iteration for the evaluator. -/
def evalListFuel : Nat → List (String × Bool) → List Node → Registry → Bool →
    Option (Registry × Bool)
  | _, _, [], reg, isConst => some (reg, isConst)
  | fuel, members, c :: rest, reg, isConst =>
    match evalCbFuel fuel members c reg isConst with
    | none => none
    | some r1 => evalListFuel fuel members rest r1.1 r1.2
termination_by fuel _ cs _ _ => (fuel, cs.length + 1)
end

mutual
/-- Fuel-bounded version of the walk's callback. -/
def cbWFuel : Nat → Option Node → Node → Registry → Option Registry
  | 0, _, _, _ => none
  | fuel + 1, parent, node, reg =>
    match node with
    | .ident _ => some (checkUsage node parent reg)
    | .enumDecl _ _ _ _ _ _ => some (visitEnumDeclaration reg node)
    | .stringLit _ => some reg
    | .numLit _ => some reg
    | .propAccess e name =>
        match cbWFuel fuel (some node) e reg with
        | none => none
        | some reg1 => some (checkUsage (.ident name) (some node) reg1)
    | .elemAccess e arg =>
        match cbWFuel fuel (some node) e reg with
        | none => none
        | some reg1 =>
          match arg with
          | some a => cbWFuel fuel (some node) a reg1
          | none => some reg1
    | .exportAssignment e => cbWFuel fuel (some node) e reg
    | .other cs => cbWListFuel fuel node cs reg
termination_by fuel _ _ _ => (fuel, 0)

/-- Fuel-bounded child iteration for the walk. -/
def cbWListFuel : Nat → Node → List Node → Registry → Option Registry
  | _, _, [], reg => some reg
  | fuel, parentNode, c :: rest, reg =>
    match cbWFuel fuel (some parentNode) c reg with
    | none => none
    | some reg1 => cbWListFuel fuel parentNode rest reg1
termination_by fuel _ cs _ => (fuel, cs.length + 1)
end

/-- Modelled from the spec: the Result Emitter as §4.1/§6 word it — for
every Registry entry where `isConst` is false and `canBeConst` is true,
one finding per occurrence, ranging from declaration start to the end of
the name token, with message `enum can be declared const` and a
zero-length replacement at the declaration start inserting the const
qualifier; entries failing the test contribute nothing. -/
def emitSpec (reg : Registry) : List Finding :=
  (reg.filter (fun t => !t.isConst && t.canBeConst)).foldr
    (fun t acc =>
      t.occurences.map (fun occ =>
        { start := declStart occ, endPos := declNameEnd occ,
          message := "enum can be declared const",
          fix := { start := declStart occ, length := 0, text := "const " } }) ++ acc)
    []

/-! ### Concrete example trees -/

/-- Declaration `enum A { X = 1 }`. -/
def exDeclA : Node := .enumDecl "A" false false [("X", some (.numLit 1))] 0 6

/-- Declaration `enum B { Y = A.X }`. -/
def exDeclB_dotX : Node :=
  .enumDecl "B" false false [("Y", some (.propAccess (.ident "A") "X"))] 10 16

/-- Declaration `enum B { Y = A["Z"] }`: indexed access with a string
literal naming no member of `A`. -/
def exDeclB_brZ : Node :=
  .enumDecl "B" false false
    [("Y", some (.elemAccess (.ident "A") (some (.stringLit "Z"))))] 10 16

/-- Statement `x.A`: the tracked name in property-name position. -/
def exUsePropName : Node := .other [.propAccess (.ident "x") "A"]

/-- Declaration `enum A { X }` with no member expressions. -/
def exDeclA_plain : Node := .enumDecl "A" false false [("X", none)] 0 6

/-- Statement consisting of a bare reference `A`. -/
def exUseA : Node := .other [.ident "A"]

/-- Declaration `const enum A { X = Y }`. -/
def exDeclA_const : Node := .enumDecl "A" true false [("X", some (.ident "Y"))] 0 12

/-- Declaration `enum A { }`. -/
def exDeclA_empty : Node := .enumDecl "A" false false [] 0 6

/-- Declaration `enum B { A = 1, Y = A }`: the second member references
the first, whose name coincides with the tracked enum `A`. -/
def exDeclB_shadow : Node :=
  .enumDecl "B" false false
    [("A", some (.numLit 1)), ("Y", some (.ident "A"))] 10 16

/-- A one-entry registry whose enum has already been disqualified. -/
def exRegCleared : Registry :=
  [{ name := "A", isConst := false, occurences := [exDeclA_plain],
     members := [("X", true)], canBeConst := false }]

/-- A source file whose only statement is a nested node (for example a
module block) containing the declaration `enum A { X }`. -/
def exTreeNested : List Node := [.other [exDeclA_plain]]

/-- A tracking entry for a non-const enum that is still eligible. -/
def exEntryLive : IEnum :=
  { name := "A", isConst := false, occurences := [exDeclA],
    members := [("X", true)], canBeConst := true }

/-- A one-entry registry whose non-const enum is still eligible. -/
def exRegLive : Registry := [exEntryLive]

/-! ### Relations and measures used by the verification -/

/-- Number of registry entries carrying one name. -/
def countName (reg : Registry) (a : String) : Nat :=
  (reg.filter (fun t => t.name == a)).length

/-- Monotone registry evolution: every tracked enum already marked
non-eligible stays tracked and non-eligible. -/
def CbcMono (regA regB : Registry) : Prop :=
  ∀ a, getCBC regA a = some false → getCBC regB a = some false

/-- Entry evolution under the evaluator: every field but `canBeConst` is
untouched, and `canBeConst` can only move downward. -/
def EntrySim (x y : IEnum) : Prop :=
  y.name = x.name ∧ y.isConst = x.isConst ∧ y.occurences = x.occurences ∧
  y.members = x.members ∧ (x.canBeConst = false → y.canBeConst = false)

/-- Registry evolution under the evaluator: entries correspond one to
one, each related by `EntrySim`. -/
def RegSim : Registry → Registry → Prop := List.Forall₂ EntrySim

/-- The enum named `a` is either not tracked yet, or tracked, still
eligible, and not const-declared. -/
def Eligible (reg : Registry) (a : String) : Prop :=
  getEnum reg a = none ∨
    ∃ t, getEnum reg a = some t ∧ t.canBeConst = true ∧ t.isConst = false

/-- The enum named `a` is tracked, still eligible, and not
const-declared. -/
def EligiblePlus (reg : Registry) (a : String) : Prop :=
  ∃ t, getEnum reg a = some t ∧ t.canBeConst = true ∧ t.isConst = false

mutual
/-- Does the subtree contain a declaration of the enum named `a` in a
position the walk dispatches to the declaration processor (the node
itself, or nested under the generically recursed node shapes)? -/
def hasDeclOf (a : String) : Node → Bool
  | .ident _ => false
  | .stringLit _ => false
  | .numLit _ => false
  | .propAccess e _ => hasDeclOf a e
  | .elemAccess e arg => hasDeclOf a e || hasDeclOfOpt a arg
  | .exportAssignment e => hasDeclOf a e
  | .enumDecl n _ _ _ _ _ => n == a
  | .other cs => hasDeclOfList a cs
termination_by structural n => n

/-- Predicate `hasDeclOf` on an optional node. -/
def hasDeclOfOpt (a : String) : Option Node → Bool
  | none => false
  | some n => hasDeclOf a n

/-- Predicate `hasDeclOf` on a node list. -/
def hasDeclOfList (a : String) : List Node → Bool
  | [] => false
  | c :: rest => hasDeclOf a c || hasDeclOfList a rest
end

/-! ### Registry lemmas -/

theorem getEnum_cons (t : IEnum) (reg : Registry) (a : String) :
    getEnum (t :: reg) a = if t.name = a then some t else getEnum reg a := by
  by_cases h : t.name = a
  · rw [if_pos h]; exact List.find?_cons_of_pos _ (by simp [h])
  · rw [if_neg h]; exact List.find?_cons_of_neg _ (by simp [h])

theorem getEnum_updateEnum (reg : Registry) (n : String) (f : IEnum → IEnum)
    (hf : ∀ t, (f t).name = t.name) (a : String) :
    getEnum (updateEnum reg n f) a =
      if a = n then (getEnum reg n).map f else getEnum reg a := by
  induction reg with
  | nil => simp [updateEnum, getEnum]
  | cons t rest ih =>
    have hhead : (if (t.name == n) = true then f t else t).name = t.name := by
      split
      · exact hf t
      · rfl
    simp only [updateEnum, List.map_cons] at ih ⊢
    simp only [getEnum_cons]
    rw [hhead]
    by_cases hta : t.name = a <;> by_cases ha : a = n <;>
      by_cases htn : t.name = n <;> simp_all

theorem getEnum_addEnum_ne (reg : Registry) (node : Node) (a : String)
    (h : ∀ name c x ms s ne, node = .enumDecl name c x ms s ne → a ≠ name) :
    getEnum (addEnum reg node) a = getEnum reg a := by
  cases node with
  | enumDecl name c x ms s ne =>
    have hne : a ≠ name := h name c x ms s ne rfl
    simp only [addEnum]
    split
    · rw [getEnum_updateEnum reg name
        (fun (t : IEnum) => { t with occurences := t.occurences ++ [Node.enumDecl name c x ms s ne] })
        (fun _ => rfl) a, if_neg hne]
    · simp only [getEnum, List.find?_append]
      have hone : List.find? (fun (t : IEnum) => t.name == a)
          [({ name := name, isConst := c, occurences := [Node.enumDecl name c x ms s ne],
              members := [], canBeConst := true } : IEnum)] = none := by
        have hba : (name == a) = false := by simp [Ne.symm hne]
        simp [List.find?, hba]
      rw [hone, Option.or_none]
  | ident t => rfl
  | stringLit t => rfl
  | numLit v => rfl
  | propAccess e nm => rfl
  | elemAccess e arg => rfl
  | exportAssignment e => rfl
  | other cs => rfl

theorem getEnum_addEnum_self (reg : Registry) (name : String) (c x : Bool)
    (ms : List (String × Option Node)) (s ne : Nat) :
    getEnum (addEnum reg (.enumDecl name c x ms s ne)) name =
      match getEnum reg name with
      | some t => some { t with occurences := t.occurences ++ [Node.enumDecl name c x ms s ne] }
      | none => some { name := name, isConst := c,
                       occurences := [Node.enumDecl name c x ms s ne],
                       members := [], canBeConst := true } := by
  simp only [addEnum]
  split
  · rename_i t hg
    rw [getEnum_updateEnum reg name
      (fun (t : IEnum) => { t with occurences := t.occurences ++ [Node.enumDecl name c x ms s ne] })
      (fun _ => rfl) name, if_pos rfl, hg]
    rfl
  · rename_i hg
    simp only [getEnum, List.find?_append]
    rw [show (List.find? (fun t => t.name == name) reg) = none from hg]
    simp [List.find?]

/-! ### Downward monotonicity of `canBeConst` -/

theorem cbcMono_refl (reg : Registry) : CbcMono reg reg := fun _ h => h

theorem cbcMono_trans {r1 r2 r3 : Registry} (h12 : CbcMono r1 r2) (h23 : CbcMono r2 r3) :
    CbcMono r1 r3 := fun a h => h23 a (h12 a h)

theorem cbcMono_updateEnum (reg : Registry) (n : String) (f : IEnum → IEnum)
    (hf : ∀ t, (f t).name = t.name)
    (hcbc : ∀ t, t.canBeConst = false → (f t).canBeConst = false) :
    CbcMono reg (updateEnum reg n f) := by
  intro a h
  rw [getCBC, getEnum_updateEnum _ _ _ hf]
  by_cases ha : a = n
  · subst ha
    rw [if_pos rfl]
    cases hg : getEnum reg a with
    | none => simp [getCBC, hg] at h
    | some t =>
      simp [getCBC, hg] at h
      simp [hcbc t h]
  · rw [if_neg ha]; exact h

theorem cbcMono_addEnum (reg : Registry) (node : Node) : CbcMono reg (addEnum reg node) := by
  intro a h
  cases node with
  | enumDecl name c x ms s ne =>
    by_cases ha : a = name
    · subst ha
      rw [getCBC, getEnum_addEnum_self]
      cases hg : getEnum reg a with
      | none => simp [getCBC, hg] at h
      | some t =>
        simp [getCBC, hg] at h
        simp [hg, h]
    · rw [getCBC, getEnum_addEnum_ne _ _ _ (fun name2 c2 x2 ms2 s2 ne2 heq => by
        cases heq; exact ha)]
      exact h
  | ident t => exact h
  | stringLit t => exact h
  | numLit v => exact h
  | propAccess e nm => exact h
  | elemAccess e arg => exact h
  | exportAssignment e => exact h
  | other cs => exact h

theorem entrySim_refl (x : IEnum) : EntrySim x x := ⟨rfl, rfl, rfl, rfl, fun h => h⟩

theorem entrySim_trans {x y z : IEnum} (hxy : EntrySim x y) (hyz : EntrySim y z) :
    EntrySim x z :=
  ⟨hyz.1.trans hxy.1, hyz.2.1.trans hxy.2.1, hyz.2.2.1.trans hxy.2.2.1,
   hyz.2.2.2.1.trans hxy.2.2.2.1, fun h => hyz.2.2.2.2 (hxy.2.2.2.2 h)⟩

theorem regSim_refl (reg : Registry) : RegSim reg reg := by
  induction reg with
  | nil => exact List.Forall₂.nil
  | cons t rest ih => exact List.Forall₂.cons (entrySim_refl t) ih

theorem regSim_trans {r1 r2 r3 : Registry} (h12 : RegSim r1 r2) (h23 : RegSim r2 r3) :
    RegSim r1 r3 := by
  induction h12 generalizing r3 with
  | nil => cases h23; exact List.Forall₂.nil
  | cons hxy hrest ih =>
    cases h23 with
    | cons hyz hrest2 => exact List.Forall₂.cons (entrySim_trans hxy hyz) (ih hrest2)

theorem regSim_map (reg : Registry) (g : IEnum → IEnum) (hg : ∀ t, EntrySim t (g t)) :
    RegSim reg (reg.map g) := by
  induction reg with
  | nil => exact List.Forall₂.nil
  | cons t rest ih => exact List.Forall₂.cons (hg t) ih

theorem regSim_updateEnum_clear (reg : Registry) (n : String) :
    RegSim reg (updateEnum reg n (fun t => { t with canBeConst := false })) := by
  refine regSim_map reg _ (fun t => ?_)
  by_cases h : t.name = n
  · have hb : (t.name == n) = true := by simp [h]
    simp only [hb, if_true]
    exact ⟨rfl, rfl, rfl, rfl, fun _ => rfl⟩
  · have hb : (t.name == n) = false := by simp [h]
    simp only [hb, Bool.false_eq_true, if_false]
    exact entrySim_refl t

theorem regSim_getEnum {r1 r2 : Registry} (h : RegSim r1 r2) (a : String) :
    (getEnum r1 a = none → getEnum r2 a = none) ∧
    (∀ t, getEnum r1 a = some t → ∃ t2, getEnum r2 a = some t2 ∧ EntrySim t t2) := by
  induction h with
  | nil => exact ⟨fun _ => rfl, fun t ht => by simp [getEnum] at ht⟩
  | cons hxy hrest ih =>
    rename_i x y l1 l2
    simp only [getEnum_cons]
    rw [hxy.1]
    by_cases hx : x.name = a
    · rw [if_pos hx, if_pos hx]
      constructor
      · intro hh; cases hh
      · intro t ht
        refine ⟨y, rfl, ?_⟩
        cases ht
        exact hxy
    · rw [if_neg hx, if_neg hx]
      exact ih

theorem regSim_cbcMono {r1 r2 : Registry} (h : RegSim r1 r2) : CbcMono r1 r2 := by
  intro a hcbc
  cases hg : getEnum r1 a with
  | none => simp [getCBC, hg] at hcbc
  | some t =>
    simp [getCBC, hg] at hcbc
    obtain ⟨t2, hg2, hsim⟩ := (regSim_getEnum h a).2 t hg
    simp [getCBC, hg2, hsim.2.2.2.2 hcbc]

theorem regSim_elemInvalidate (reg : Registry) (e : Node) (arg : Option Node) :
    RegSim reg (elemInvalidate reg e arg) := by
  unfold elemInvalidate
  split
  · exact regSim_refl reg
  · split
    · exact regSim_updateEnum_clear _ _
    · exact regSim_refl reg
  · exact regSim_refl reg

theorem evalIdent_fst (m : List (String × Bool)) (text : String) (reg : Registry) (i : Bool) :
    (evalIdent m text reg i).1 = reg := by
  unfold evalIdent
  split <;> rfl

mutual
theorem regSim_evalCb (m : List (String × Bool)) (e : Node) (reg : Registry) (i : Bool) :
    RegSim reg (evalCb m e reg i).1 := by
  cases e with
  | ident t => rw [show evalCb m (.ident t) reg i = evalIdent m t reg i from rfl, evalIdent_fst]
               exact regSim_refl reg
  | stringLit t => exact regSim_refl reg
  | numLit v => exact regSim_refl reg
  | enumDecl n c x ms s ne => exact regSim_refl reg
  | exportAssignment e1 => exact regSim_evalCb m e1 reg i
  | propAccess e1 name =>
    simp only [evalCb]
    split
    · exact regSim_refl reg
    · rw [evalIdent_fst]
      exact regSim_evalCb m e1 reg false
  | elemAccess e1 arg =>
    simp only [evalCb]
    split
    · exact regSim_refl reg
    · have h0 := regSim_elemInvalidate reg e1 arg
      have h1 := regSim_evalCb m e1 (elemInvalidate reg e1 arg) false
      cases arg with
      | none => exact regSim_trans h0 h1
      | some a =>
        exact regSim_trans h0 (regSim_trans h1 (regSim_evalCb m a _ _))
  | other cs => exact regSim_evalList m cs reg i

theorem regSim_evalList (m : List (String × Bool)) (cs : List Node) (reg : Registry)
    (i : Bool) : RegSim reg (evalList m cs reg i).1 := by
  cases cs with
  | nil => exact regSim_refl reg
  | cons c rest =>
    simp only [evalList]
    exact regSim_trans (regSim_evalCb m c reg i)
      (regSim_evalList m rest (evalCb m c reg i).1 (evalCb m c reg i).2)
end

theorem cbcMono_foldl {α : Type} (step : Registry → α → Registry)
    (hstep : ∀ r x, CbcMono r (step r x)) (l : List α) (r : Registry) :
    CbcMono r (l.foldl step r) := by
  induction l generalizing r with
  | nil => exact cbcMono_refl r
  | cons x rest ih => exact cbcMono_trans (hstep r x) (ih (step r x))

theorem evalIdent_eq (m : List (String × Bool)) (text : String) (reg : Registry) (i : Bool) :
    evalIdent m text reg i = (reg, i && memTrue m text) := by
  unfold evalIdent
  cases h : memTrue m text <;> simp [h]

theorem cbcMono_usageClear (node : Node) (reg : Registry) :
    CbcMono reg (usageClear node reg) := by
  unfold usageClear
  split
  · split
    · exact cbcMono_updateEnum _ _ _ (fun _ => rfl) (fun _ _ => rfl)
    · exact cbcMono_refl reg
  · exact cbcMono_refl reg

theorem cbcMono_checkUsage (node : Node) (parent : Option Node) (reg : Registry) :
    CbcMono reg (checkUsage node parent reg) := by
  unfold checkUsage
  split
  · exact cbcMono_refl reg
  · exact cbcMono_usageClear node reg

theorem cbcMono_isConstInit (reg : Registry) (init : Node) (m : List (String × Bool)) :
    CbcMono reg (isConstInitializer reg init m).1 :=
  regSim_cbcMono (regSim_evalCb m init reg true)

theorem cbcMono_processMember (reg : Registry) (n : String) (m : String × Option Node) :
    CbcMono reg (processMember reg n m) := by
  unfold processMember
  split
  · exact cbcMono_refl reg
  · rename_i track hg
    have h1 : CbcMono reg (if track.isConst then (reg, true)
        else match m.2 with
          | none => (reg, true)
          | some init => isConstInitializer reg init track.members).1 := by
      split
      · exact cbcMono_refl reg
      · split
        · exact cbcMono_refl reg
        · exact cbcMono_isConstInit reg _ track.members
    exact cbcMono_trans h1
      (cbcMono_updateEnum _ _ _ (fun _ => rfl) (fun t ht => by simp [ht]))

theorem cbcMono_visitEnum (reg : Registry) (node : Node) :
    CbcMono reg (visitEnumDeclaration reg node) := by
  unfold visitEnumDeclaration
  split
  · rename_i name c hasExport ms s ne
    exact cbcMono_trans (cbcMono_addEnum reg _)
      (cbcMono_trans
        (cbcMono_foldl _ (fun r m => cbcMono_processMember r name m) ms _)
        (cbcMono_updateEnum _ _ _ (fun _ => rfl) (fun t ht => by simp [ht])))
  · exact cbcMono_refl reg

mutual
theorem cbcMono_cbW (parent : Option Node) (node : Node) (reg : Registry) :
    CbcMono reg (cbW parent node reg) := by
  cases node with
  | ident t => exact cbcMono_checkUsage _ _ _
  | enumDecl n c x ms s ne => exact cbcMono_visitEnum _ _
  | stringLit t => exact cbcMono_refl reg
  | numLit v => exact cbcMono_refl reg
  | propAccess e name =>
    exact cbcMono_trans (cbcMono_cbW (some (.propAccess e name)) e reg)
      (cbcMono_checkUsage _ _ _)
  | elemAccess e arg =>
    cases arg with
    | none => exact cbcMono_cbW (some (.elemAccess e none)) e reg
    | some a =>
      exact cbcMono_trans (cbcMono_cbW (some (.elemAccess e (some a))) e reg)
        (cbcMono_cbW (some (.elemAccess e (some a))) a _)
  | exportAssignment e => exact cbcMono_cbW (some (.exportAssignment e)) e reg
  | other cs => exact cbcMono_cbWList (.other cs) cs reg

theorem cbcMono_cbWList (pn : Node) (cs : List Node) (reg : Registry) :
    CbcMono reg (cbWList pn cs reg) := by
  cases cs with
  | nil => exact cbcMono_refl reg
  | cons c rest =>
    exact cbcMono_trans (cbcMono_cbW (some pn) c reg) (cbcMono_cbWList pn rest _)
end

/-! ### Member map lemmas -/

theorem mget_cons (p : String × Bool) (rest : List (String × Bool)) (a : String) :
    mget (p :: rest) a = if p.1 = a then some p.2 else mget rest a := by
  unfold mget
  by_cases h : p.1 = a
  · rw [List.find?_cons_of_pos _ (by simp [h]), if_pos h]
  · rw [List.find?_cons_of_neg _ (by simp [h]), if_neg h]

theorem mget_map_overwrite (mm : List (String × Bool)) (k : String) (v : Bool) (a : String) :
    mget (mm.map (fun p => if p.1 == k then (k, v) else p)) a =
      if a = k then (if (mm.find? (fun p => p.1 == k)).isSome then some v else none)
      else mget mm a := by
  induction mm with
  | nil => by_cases ha : a = k <;> simp [mget, ha]
  | cons p rest ih =>
    obtain ⟨pk, pv⟩ := p
    simp only [List.map_cons]
    by_cases hpk : pk = k
    · subst hpk
      have hb : (((pk, pv) : String × Bool).1 == pk) = true := by simp
      simp only [hb, if_true]
      have hfind : (List.find? (fun p => p.1 == pk) ((pk, pv) :: rest)).isSome = true := by
        rw [List.find?_cons_of_pos _ (by simp)]
        rfl
      rw [hfind]
      by_cases ha : a = pk
      · subst ha
        rw [mget_cons, if_pos rfl, if_pos rfl]
        simp
      · rw [mget_cons]
        simp only [show ¬ (pk = a) from fun h => ha h.symm, if_false]
        rw [ih, if_neg ha, if_neg ha, mget_cons,
          if_neg (show ¬ (pk = a) from fun h => ha h.symm)]
    · have hb : (((pk, pv) : String × Bool).1 == k) = false := by simp [hpk]
      simp only [hb, Bool.false_eq_true, if_false]
      have hfind : List.find? (fun p => p.1 == k) ((pk, pv) :: rest) =
          List.find? (fun p => p.1 == k) rest :=
        List.find?_cons_of_neg _ (by simp [hpk])
      rw [hfind]
      by_cases ha : a = k
      · subst ha
        have hpa : ¬ (pk = a) := hpk
        rw [mget_cons, if_neg hpa, ih, if_pos rfl, if_pos rfl]
      · rw [mget_cons, mget_cons, ih, if_neg ha, if_neg ha]

theorem mget_none_of_find?_none (mm : List (String × Bool)) (k : String)
    (h : List.find? (fun p => p.1 == k) mm = none) : mget mm k = none := by
  unfold mget
  rw [h]

theorem mget_mset (mm : List (String × Bool)) (k : String) (v : Bool) (a : String) :
    mget (mset mm k v) a = if a = k then some v else mget mm a := by
  unfold mset
  split
  · rename_i hpre
    rw [mget_map_overwrite]
    by_cases ha : a = k
    · simp [ha, hpre]
    · simp [ha]
  · rename_i habs
    have hmm : List.find? (fun p => p.1 == k) mm = none := by
      cases hf : List.find? (fun p => p.1 == k) mm with
      | none => rfl
      | some p => rw [hf] at habs; simp at habs
    by_cases ha : a = k
    · subst ha
      unfold mget
      rw [List.find?_append, hmm]
      simp [List.find?]
    · unfold mget
      rw [List.find?_append]
      have hsingle : List.find? (fun (p : String × Bool) => p.1 == a) [(k, v)] = none := by
        have : (k == a) = false := by simp [Ne.symm ha]
        simp [List.find?, this]
      rw [hsingle, Option.or_none, if_neg ha]

theorem memTrue_mset (mm : List (String × Bool)) (k : String) (v : Bool) (a : String) :
    memTrue (mset mm k v) a = if a = k then v else memTrue mm a := by
  unfold memTrue
  rw [mget_mset]
  by_cases ha : a = k <;> simp [ha]

/-! ### Declaration processing lemmas -/

theorem regSim_memberConst (reg : Registry) (track : IEnum) (init? : Option Node) :
    RegSim reg (memberConst reg track init?).1 := by
  unfold memberConst
  split
  · exact regSim_refl reg
  · split
    · exact regSim_refl reg
    · exact regSim_evalCb track.members _ reg true

theorem memberConst_none (reg : Registry) (track : IEnum) :
    memberConst reg track none = (reg, true) := by
  unfold memberConst
  split <;> rfl

theorem processMember_eq_none (reg : Registry) (n : String) (m : String × Option Node)
    (hg : getEnum reg n = none) : processMember reg n m = reg := by
  unfold processMember
  rw [hg]

theorem getEnum_updateEnum_cm (reg : Registry) (n : String) (v : Bool) (k : String)
    (a : String) :
    getEnum (updateEnum reg n (fun t =>
        { t with canBeConst := t.canBeConst && v, members := mset t.members k v })) a =
      if a = n then (getEnum reg n).map (fun t =>
        { t with canBeConst := t.canBeConst && v, members := mset t.members k v })
      else getEnum reg a :=
  getEnum_updateEnum reg n (fun t =>
    { t with canBeConst := t.canBeConst && v, members := mset t.members k v })
    (fun _ => rfl) a

theorem processMember_eq_some (reg : Registry) (n : String) (m : String × Option Node)
    (track : IEnum) (hg : getEnum reg n = some track) :
    processMember reg n m = updateEnum (memberConst reg track m.2).1 n
      (fun t =>
        { t with
            canBeConst := t.canBeConst && (memberConst reg track m.2).2,
            members := mset t.members m.1 (memberConst reg track m.2).2 }) := by
  unfold processMember
  rw [hg]

theorem processMember_entry (reg : Registry) (n : String) (m : String × Option Node)
    (track : IEnum) (hg : getEnum reg n = some track) :
    ∃ t2 v, getEnum (processMember reg n m) n = some t2 ∧
      t2.name = track.name ∧ t2.isConst = track.isConst ∧
      t2.occurences = track.occurences ∧
      t2.members = mset track.members m.1 v ∧
      (track.canBeConst = false → t2.canBeConst = false) := by
  rw [processMember_eq_some reg n m track hg]
  obtain ⟨t1, hg1, hsim⟩ := (regSim_getEnum (regSim_memberConst reg track m.2) n).2 track hg
  rw [getEnum_updateEnum_cm, if_pos rfl, hg1]
  refine ⟨_, (memberConst reg track m.2).2, rfl, hsim.1, hsim.2.1, hsim.2.2.1, ?_, ?_⟩
  · dsimp only
    rw [hsim.2.2.2.1]
  · intro hc
    dsimp only
    simp [hsim.2.2.2.2 hc]

theorem processMember_other (reg : Registry) (n : String) (m : String × Option Node)
    (b : String) (hb : b ≠ n) :
    (getEnum reg b = none → getEnum (processMember reg n m) b = none) ∧
    (∀ t, getEnum reg b = some t →
      ∃ t2, getEnum (processMember reg n m) b = some t2 ∧ EntrySim t t2) := by
  cases hg : getEnum reg n with
  | none =>
    rw [processMember_eq_none reg n m hg]
    exact regSim_getEnum (regSim_refl reg) b
  | some track =>
    rw [processMember_eq_some reg n m track hg]
    have hsim := regSim_memberConst reg track m.2
    constructor
    · intro h0
      rw [getEnum_updateEnum_cm, if_neg hb]
      exact (regSim_getEnum hsim b).1 h0
    · intro t ht
      rw [getEnum_updateEnum_cm, if_neg hb]
      exact (regSim_getEnum hsim b).2 t ht

theorem foldl_processMember_char (n : String) (ms : List (String × Option Node))
    (reg : Registry) (track : IEnum) (hg : getEnum reg n = some track) :
    ∃ t2, getEnum (ms.foldl (fun r m => processMember r n m) reg) n = some t2 ∧
      t2.name = track.name ∧ t2.isConst = track.isConst ∧
      t2.occurences = track.occurences ∧
      (∀ k, (mget t2.members k).isSome ↔
        ((mget track.members k).isSome ∨ k ∈ ms.map Prod.fst)) ∧
      (track.canBeConst = false → t2.canBeConst = false) := by
  induction ms generalizing reg track with
  | nil => exact ⟨track, hg, rfl, rfl, rfl, fun k => by simp, fun h => h⟩
  | cons m rest ih =>
    obtain ⟨t1, v, hg1, hn, hc, ho, hm, hcbc⟩ := processMember_entry reg n m track hg
    obtain ⟨t2, hg2, hn2, hc2, ho2, hm2, hcbc2⟩ := ih (processMember reg n m) t1 hg1
    refine ⟨t2, by simpa using hg2, hn2.trans hn, hc2.trans hc, ho2.trans ho, ?_,
      fun h => hcbc2 (hcbc h)⟩
    intro k
    rw [hm2 k, hm, mget_mset]
    by_cases hk : k = m.1 <;> simp [hk]

/-! ### Preservation of an undisturbed enum -/

theorem getEnum_updateEnum_clear (reg : Registry) (n : String) (a : String) :
    getEnum (updateEnum reg n (fun t => { t with canBeConst := false })) a =
      if a = n then (getEnum reg n).map (fun t => { t with canBeConst := false })
      else getEnum reg a :=
  getEnum_updateEnum reg n (fun t => { t with canBeConst := false }) (fun _ => rfl) a

theorem getEnum_updateEnum_cb (reg : Registry) (n : String) (b : Bool) (a : String) :
    getEnum (updateEnum reg n (fun t => { t with canBeConst := t.canBeConst && b })) a =
      if a = n then (getEnum reg n).map (fun t => { t with canBeConst := t.canBeConst && b })
      else getEnum reg a :=
  getEnum_updateEnum reg n (fun t => { t with canBeConst := t.canBeConst && b })
    (fun _ => rfl) a

theorem getEnum_elemInvalidate_ne (a : String) (reg : Registry) (e : Node)
    (arg : Option Node) (h : ∀ t, e = .ident t → t ≠ a) :
    getEnum (elemInvalidate reg e arg) a = getEnum reg a := by
  unfold elemInvalidate
  split
  · rfl
  · rename_i etext harg
    split
    · rw [getEnum_updateEnum_clear, if_neg (Ne.symm (h etext rfl))]
    · rfl
  · rfl

mutual
theorem getEnum_evalCb_noDisq (a : String) (m : List (String × Bool)) (e : Node)
    (reg : Registry) (i : Bool) (h : noDisq a e = true) :
    getEnum (evalCb m e reg i).1 a = getEnum reg a := by
  cases e with
  | ident t =>
    show getEnum (evalIdent m t reg i).1 a = getEnum reg a
    rw [evalIdent_fst]
  | stringLit t => rfl
  | numLit v => rfl
  | enumDecl n c x ms s ne => rfl
  | exportAssignment e1 => exact getEnum_evalCb_noDisq a m e1 reg i h
  | propAccess e1 nm =>
    simp only [evalCb]
    split
    · rfl
    · rw [evalIdent_fst]
      exact getEnum_evalCb_noDisq a m e1 reg false h
  | elemAccess e1 arg =>
    have h1 : noDisq a e1 = true ∧ noDisqOpt a arg = true := by
      simpa [noDisq, Bool.and_eq_true] using h
    have hne : ∀ t, e1 = .ident t → t ≠ a := by
      intro t het hta
      subst het hta
      simp [noDisq] at h1
    simp only [evalCb]
    split
    · rfl
    · have hbase : getEnum (evalCb m e1 (elemInvalidate reg e1 arg) false).1 a
          = getEnum reg a := by
        rw [getEnum_evalCb_noDisq a m e1 (elemInvalidate reg e1 arg) false h1.1,
          getEnum_elemInvalidate_ne a reg e1 arg hne]
      cases arg with
      | none => exact hbase
      | some a1 =>
        rw [getEnum_evalCb_noDisq a m a1 _ _ (by simpa [noDisqOpt] using h1.2), hbase]
  | other cs => exact getEnum_evalList_noDisq a m cs reg i h

theorem getEnum_evalList_noDisq (a : String) (m : List (String × Bool)) (cs : List Node)
    (reg : Registry) (i : Bool) (h : noDisqList a cs = true) :
    getEnum (evalList m cs reg i).1 a = getEnum reg a := by
  cases cs with
  | nil => rfl
  | cons c rest =>
    have h1 : noDisq a c = true ∧ noDisqList a rest = true := by
      simpa [noDisqList, Bool.and_eq_true] using h
    show getEnum (evalList m rest (evalCb m c reg i).1 (evalCb m c reg i).2).1 a = getEnum reg a
    rw [getEnum_evalList_noDisq a m rest _ _ h1.2, getEnum_evalCb_noDisq a m c reg i h1.1]
end

theorem getEnum_usageClear_ne (node : Node) (reg : Registry) (a : String)
    (h : ∀ t, node = .ident t → t ≠ a) :
    getEnum (usageClear node reg) a = getEnum reg a := by
  unfold usageClear
  split
  · rename_i text
    split
    · rw [getEnum_updateEnum_clear, if_neg (Ne.symm (h text rfl))]
    · rfl
  · rfl

theorem getEnum_checkUsage_ne (node : Node) (parent : Option Node) (reg : Registry)
    (a : String) (h : ∀ t, node = .ident t → t ≠ a) :
    getEnum (checkUsage node parent reg) a = getEnum reg a := by
  unfold checkUsage
  split
  · rfl
  · exact getEnum_usageClear_ne node reg a h

theorem getEnum_memberConst_noDisq (a : String) (reg : Registry) (track : IEnum)
    (init? : Option Node) (h : noDisqOpt a init? = true) :
    getEnum (memberConst reg track init?).1 a = getEnum reg a := by
  cases init? with
  | none => rw [memberConst_none]
  | some init =>
    unfold memberConst
    split
    · rfl
    · exact getEnum_evalCb_noDisq a track.members init reg true (by simpa [noDisqOpt] using h)

theorem getEnum_processMember_noDisq (a : String) (reg : Registry) (n : String)
    (m : String × Option Node) (hna : a ≠ n) (h : noDisqOpt a (m.2) = true) :
    getEnum (processMember reg n m) a = getEnum reg a := by
  cases hg : getEnum reg n with
  | none => rw [processMember_eq_none reg n m hg]
  | some track =>
    rw [processMember_eq_some reg n m track hg, getEnum_updateEnum_cm, if_neg hna,
      getEnum_memberConst_noDisq a reg track (m.2) h]

theorem getEnum_foldl_processMember_noDisq (a n : String) (ms : List (String × Option Node))
    (reg : Registry) (hna : a ≠ n) (h : noDisqMembers a ms = true) :
    getEnum (ms.foldl (fun r m => processMember r n m) reg) a = getEnum reg a := by
  induction ms generalizing reg with
  | nil => rfl
  | cons m rest ih =>
    have h1 : noDisqOpt a (m.2) = true ∧ noDisqMembers a rest = true := by
      simpa [noDisqMembers, Bool.and_eq_true] using h
    simp only [List.foldl_cons]
    rw [ih _ h1.2, getEnum_processMember_noDisq a reg n m hna h1.1]

theorem getEnum_visitEnum_noDisq (a : String) (reg : Registry) (name : String) (c x : Bool)
    (ms : List (String × Option Node)) (s ne : Nat) (hna : a ≠ name)
    (h : noDisqMembers a ms = true) :
    getEnum (visitEnumDeclaration reg (.enumDecl name c x ms s ne)) a = getEnum reg a := by
  show getEnum (updateEnum (ms.foldl (fun r m => processMember r name m)
      (addEnum reg (.enumDecl name c x ms s ne)))
      name (fun t => { t with canBeConst := t.canBeConst && !x })) a = getEnum reg a
  rw [getEnum_updateEnum_cb, if_neg hna,
    getEnum_foldl_processMember_noDisq a name ms _ hna h,
    getEnum_addEnum_ne reg _ a (fun n2 c2 x2 ms2 s2 ne2 heq => by cases heq; exact hna)]

/-! ### Eligibility of an undisturbed plain enum -/

theorem eligible_of_getEnum_eq {r1 r2 : Registry} {a : String}
    (h : getEnum r2 a = getEnum r1 a) :
    (Eligible r1 a → Eligible r2 a) ∧ (EligiblePlus r1 a → EligiblePlus r2 a) := by
  unfold Eligible EligiblePlus
  rw [h]
  exact ⟨id, id⟩

theorem foldl_processMember_noInit (a : String) (ms : List (String × Option Node))
    (reg : Registry) (track : IEnum) (hg : getEnum reg a = some track)
    (hnone : ∀ m ∈ ms, (m.2) = (none : Option Node)) :
    ∃ t2, getEnum (ms.foldl (fun r m => processMember r a m) reg) a = some t2 ∧
      t2.canBeConst = track.canBeConst ∧ t2.isConst = track.isConst := by
  induction ms generalizing reg track with
  | nil => exact ⟨track, hg, rfl, rfl⟩
  | cons m rest ih =>
    have hm2 : m.2 = none := hnone m (by simp)
    have hstep : getEnum (processMember reg a m) a =
        some { track with
                 canBeConst := track.canBeConst && true,
                 members := mset track.members m.1 true } := by
      rw [processMember_eq_some reg a m track hg, hm2, memberConst_none]
      dsimp only
      rw [getEnum_updateEnum_cm, if_pos rfl, hg]
      rfl
    simp only [List.foldl_cons]
    obtain ⟨t2, hg2, hc2, hi2⟩ := ih (processMember reg a m) _ hstep
      (fun m hm => hnone m (by simp [hm]))
    exact ⟨t2, hg2, by simpa using hc2, hi2⟩

theorem visitEnum_self (a : String) (reg : Registry) (ms : List (String × Option Node))
    (s ne : Nat) (hnone : ∀ m ∈ ms, (m.2) = (none : Option Node))
    (helig : Eligible reg a) :
    EligiblePlus (visitEnumDeclaration reg (.enumDecl a false false ms s ne)) a := by
  have hadd : ∃ t0, getEnum (addEnum reg (.enumDecl a false false ms s ne)) a = some t0 ∧
      t0.canBeConst = true ∧ t0.isConst = false := by
    cases helig with
    | inl h0 =>
      refine ⟨{ name := a, isConst := false,
                occurences := [Node.enumDecl a false false ms s ne],
                members := [], canBeConst := true }, ?_, rfl, rfl⟩
      rw [getEnum_addEnum_self, h0]
    | inr hsome =>
      obtain ⟨t, hg, hc, hi⟩ := hsome
      refine ⟨{ t with occurences := t.occurences ++ [Node.enumDecl a false false ms s ne] },
        ?_, by simpa using hc, by simpa using hi⟩
      rw [getEnum_addEnum_self, hg]
  obtain ⟨t0, hg0, hc0, hi0⟩ := hadd
  obtain ⟨t2, hg2, hc2, hi2⟩ := foldl_processMember_noInit a ms _ t0 hg0 hnone
  show EligiblePlus (updateEnum (ms.foldl (fun r m => processMember r a m)
      (addEnum reg (.enumDecl a false false ms s ne)))
      a (fun t => { t with canBeConst := t.canBeConst && !false })) a
  refine ⟨{ t2 with canBeConst := t2.canBeConst && !false }, ?_, ?_, ?_⟩
  · rw [getEnum_updateEnum_cb, if_pos rfl, hg2]
    rfl
  · simp [hc2, hc0]
  · simpa using hi2.trans hi0

mutual
theorem eligible_cbW (a : String) (parent : Option Node) (node : Node) (reg : Registry)
    (h : noDisq a node = true) :
    (Eligible reg a → Eligible (cbW parent node reg) a) ∧
    (EligiblePlus reg a → EligiblePlus (cbW parent node reg) a) := by
  cases node with
  | ident t =>
    have ht : t ≠ a := by simpa [noDisq] using h
    exact eligible_of_getEnum_eq
      (getEnum_checkUsage_ne (.ident t) parent reg a (fun t2 ht2 => by cases ht2; exact ht))
  | stringLit t => exact ⟨id, id⟩
  | numLit v => exact ⟨id, id⟩
  | exportAssignment e1 => exact eligible_cbW a (some (.exportAssignment e1)) e1 reg h
  | propAccess e1 nm =>
    have hsub := eligible_cbW a (some (.propAccess e1 nm)) e1 reg (by simpa [noDisq] using h)
    have hcu : checkUsage (.ident nm) (some (.propAccess e1 nm))
        (cbW (some (.propAccess e1 nm)) e1 reg) = cbW (some (.propAccess e1 nm)) e1 reg := rfl
    constructor
    · intro hE
      show Eligible (checkUsage (.ident nm) (some (.propAccess e1 nm))
        (cbW (some (.propAccess e1 nm)) e1 reg)) a
      rw [hcu]
      exact hsub.1 hE
    · intro hE
      show EligiblePlus (checkUsage (.ident nm) (some (.propAccess e1 nm))
        (cbW (some (.propAccess e1 nm)) e1 reg)) a
      rw [hcu]
      exact hsub.2 hE
  | elemAccess e1 arg =>
    have h1 : noDisq a e1 = true ∧ noDisqOpt a arg = true := by
      simpa [noDisq, Bool.and_eq_true] using h
    have hsub := eligible_cbW a (some (.elemAccess e1 arg)) e1 reg h1.1
    cases arg with
    | none => exact hsub
    | some a1 =>
      have hsub2 := eligible_cbW a (some (.elemAccess e1 (some a1))) a1
        (cbW (some (.elemAccess e1 (some a1))) e1 reg) (by simpa [noDisqOpt] using h1.2)
      exact ⟨fun hE => hsub2.1 (hsub.1 hE), fun hE => hsub2.2 (hsub.2 hE)⟩
  | enumDecl n c x ms s ne =>
    by_cases hn : n = a
    · subst hn
      have hcond : c = false ∧ x = false ∧ ∀ m ∈ ms, (m.2) = (none : Option Node) := by
        have := h
        simp only [noDisq, beq_self_eq_true, if_true, Bool.and_eq_true, Bool.not_eq_true',
          List.all_eq_true] at this
        refine ⟨this.1.1.1, this.1.1.2, fun m hm => ?_⟩
        have := this.1.2 m hm
        cases hmm : m.2 with
        | none => rfl
        | some v => rw [hmm] at this; simp at this
      obtain ⟨hc, hx, hnone⟩ := hcond
      subst hc hx
      constructor
      · intro hE
        exact Or.inr (visitEnum_self n reg ms s ne hnone hE)
      · intro hE
        exact visitEnum_self n reg ms s ne hnone (Or.inr hE)
    · have hmem : noDisqMembers a ms = true := by
        have hb : (n == a) = false := by simp [hn]
        simpa [noDisq, hb, Bool.and_eq_true] using h
      exact eligible_of_getEnum_eq
        (getEnum_visitEnum_noDisq a reg n c x ms s ne (fun hh => hn hh.symm) hmem)
  | other cs => exact eligible_cbWList a (.other cs) cs reg h

theorem eligible_cbWList (a : String) (pn : Node) (cs : List Node) (reg : Registry)
    (h : noDisqList a cs = true) :
    (Eligible reg a → Eligible (cbWList pn cs reg) a) ∧
    (EligiblePlus reg a → EligiblePlus (cbWList pn cs reg) a) := by
  cases cs with
  | nil => exact ⟨id, id⟩
  | cons c rest =>
    have h1 : noDisq a c = true ∧ noDisqList a rest = true := by
      simpa [noDisqList, Bool.and_eq_true] using h
    have hc := eligible_cbW a (some pn) c reg h1.1
    have hr := eligible_cbWList a pn rest (cbW (some pn) c reg) h1.2
    exact ⟨fun hE => hr.1 (hc.1 hE), fun hE => hr.2 (hc.2 hE)⟩
end

mutual
theorem eligiblePlus_hasDecl (a : String) (parent : Option Node) (node : Node)
    (reg : Registry) (hok : noDisq a node = true) (hdecl : hasDeclOf a node = true)
    (hE : Eligible reg a) : EligiblePlus (cbW parent node reg) a := by
  cases node with
  | ident t => simp [hasDeclOf] at hdecl
  | stringLit t => simp [hasDeclOf] at hdecl
  | numLit v => simp [hasDeclOf] at hdecl
  | enumDecl n c x ms s ne =>
    have hn : n = a := by simpa [hasDeclOf] using hdecl
    subst hn
    have hcond : c = false ∧ x = false ∧ ∀ m ∈ ms, (m.2) = (none : Option Node) := by
      have := hok
      simp only [noDisq, beq_self_eq_true, if_true, Bool.and_eq_true, Bool.not_eq_true',
        List.all_eq_true] at this
      refine ⟨this.1.1.1, this.1.1.2, fun m hm => ?_⟩
      have := this.1.2 m hm
      cases hmm : m.2 with
      | none => rfl
      | some v => rw [hmm] at this; simp at this
    obtain ⟨hc, hx, hnone⟩ := hcond
    subst hc hx
    exact visitEnum_self n reg ms s ne hnone hE
  | exportAssignment e1 =>
    exact eligiblePlus_hasDecl a (some (.exportAssignment e1)) e1 reg hok hdecl hE
  | propAccess e1 nm =>
    have hsub := eligiblePlus_hasDecl a (some (.propAccess e1 nm)) e1 reg
      (by simpa [noDisq] using hok) (by simpa [hasDeclOf] using hdecl) hE
    have hcu : checkUsage (.ident nm) (some (.propAccess e1 nm))
        (cbW (some (.propAccess e1 nm)) e1 reg) = cbW (some (.propAccess e1 nm)) e1 reg := rfl
    show EligiblePlus (checkUsage (.ident nm) (some (.propAccess e1 nm))
      (cbW (some (.propAccess e1 nm)) e1 reg)) a
    rw [hcu]
    exact hsub
  | elemAccess e1 arg =>
    have h1 : noDisq a e1 = true ∧ noDisqOpt a arg = true := by
      simpa [noDisq, Bool.and_eq_true] using hok
    have hd : hasDeclOf a e1 = true ∨ hasDeclOfOpt a arg = true := by
      simpa [hasDeclOf, Bool.or_eq_true] using hdecl
    cases arg with
    | none =>
      have hde : hasDeclOf a e1 = true := by
        rcases hd with h | h
        · exact h
        · simp [hasDeclOfOpt] at h
      exact eligiblePlus_hasDecl a (some (.elemAccess e1 none)) e1 reg h1.1 hde hE
    | some a1 =>
      rcases hd with h | h
      · have hp := eligiblePlus_hasDecl a (some (.elemAccess e1 (some a1))) e1 reg h1.1 h hE
        exact (eligible_cbW a (some (.elemAccess e1 (some a1))) a1
          (cbW (some (.elemAccess e1 (some a1))) e1 reg)
          (by simpa [noDisqOpt] using h1.2)).2 hp
      · have hE1 := (eligible_cbW a (some (.elemAccess e1 (some a1))) e1 reg h1.1).1 hE
        exact eligiblePlus_hasDecl a (some (.elemAccess e1 (some a1))) a1
          (cbW (some (.elemAccess e1 (some a1))) e1 reg)
          (by simpa [noDisqOpt] using h1.2) (by simpa [hasDeclOfOpt] using h) hE1
  | other cs => exact eligiblePlus_hasDeclList a (.other cs) cs reg hok hdecl hE

theorem eligiblePlus_hasDeclList (a : String) (pn : Node) (cs : List Node) (reg : Registry)
    (hok : noDisqList a cs = true) (hdecl : hasDeclOfList a cs = true)
    (hE : Eligible reg a) : EligiblePlus (cbWList pn cs reg) a := by
  cases cs with
  | nil => simp [hasDeclOfList] at hdecl
  | cons c rest =>
    have h1 : noDisq a c = true ∧ noDisqList a rest = true := by
      simpa [noDisqList, Bool.and_eq_true] using hok
    have hd : hasDeclOf a c = true ∨ hasDeclOfList a rest = true := by
      simpa [hasDeclOfList, Bool.or_eq_true] using hdecl
    show EligiblePlus (cbWList pn rest (cbW (some pn) c reg)) a
    rcases hd with h | h
    · have hp := eligiblePlus_hasDecl a (some pn) c reg h1.1 h hE
      exact (eligible_cbWList a pn rest (cbW (some pn) c reg) h1.2).2 hp
    · have hE1 := (eligible_cbW a (some pn) c reg h1.1).1 hE
      exact eligiblePlus_hasDeclList a pn rest (cbW (some pn) c reg) h1.2 h hE1
end

theorem walkAll_eligiblePlus (tree : List Node) (a : String)
    (hok : ∀ n ∈ tree, noDisq a n = true)
    (hex : ∃ n ∈ tree, hasDeclOf a n = true) :
    EligiblePlus (walkAll tree) a := by
  suffices hgen : ∀ (tree : List Node) (reg : Registry),
      (∀ n ∈ tree, noDisq a n = true) → Eligible reg a →
      ((∃ n ∈ tree, hasDeclOf a n = true) →
        EligiblePlus (tree.foldl (fun r n => cbW none n r) reg) a) ∧
      (EligiblePlus reg a → EligiblePlus (tree.foldl (fun r n => cbW none n r) reg) a) by
    exact ((hgen tree [] hok (Or.inl rfl)).1 hex)
  intro tree
  induction tree with
  | nil =>
    intro reg hok2 hE
    exact ⟨fun hx => absurd hx (by simp), fun hp => hp⟩
  | cons n rest ih =>
    intro reg hok2 hE
    have hn : noDisq a n = true := hok2 n (by simp)
    have hrest : ∀ n2 ∈ rest, noDisq a n2 = true := fun n2 hn2 => hok2 n2 (by simp [hn2])
    have hstep := eligible_cbW a none n reg hn
    have ihh := ih (cbW none n reg) hrest (hstep.1 hE)
    constructor
    · intro hx
      simp only [List.foldl_cons]
      rcases hx with ⟨n2, hn2, hdecl⟩
      rcases List.mem_cons.mp hn2 with heq | hmem
      · subst heq
        exact ihh.2 (eligiblePlus_hasDecl a none n2 reg hn hdecl hE)
      · exact ihh.1 ⟨n2, hmem, hdecl⟩
    · intro hp
      simp only [List.foldl_cons]
      exact ihh.2 (hstep.2 hp)

/-! ### Emission lemmas -/

theorem emitSpec_cons (t : IEnum) (rest : Registry) :
    emitSpec (t :: rest) =
      if !t.isConst && t.canBeConst then
        t.occurences.map (fun occ =>
          { start := declStart occ, endPos := declNameEnd occ,
            message := "enum can be declared const",
            fix := { start := declStart occ, length := 0, text := "const " } }) ++ emitSpec rest
      else emitSpec rest := by
  unfold emitSpec
  cases hc : (!t.isConst && t.canBeConst) with
  | true => simp [List.filter, hc]
  | false => simp [List.filter, hc]

theorem emit_foldl_acc (reg : Registry) (acc : List Finding) :
    reg.foldl (fun acc track =>
      if !track.isConst && track.canBeConst then
        acc ++ track.occurences.map mkFinding
      else acc) acc = acc ++ emitSpec reg := by
  induction reg generalizing acc with
  | nil => simp [emitSpec]
  | cons t rest ih =>
    simp only [List.foldl_cons]
    rw [ih, emitSpec_cons]
    cases hc : (!t.isConst && t.canBeConst) with
    | true => simp [mkFinding, FAIL_MESSAGE]
    | false => simp

theorem emit_eq_emitSpec (reg : Registry) : emit reg = emitSpec reg := by
  unfold emit
  rw [emit_foldl_acc reg []]
  simp

theorem mkFinding_mem_emit (reg : Registry) (t : IEnum) (occ : Node)
    (ht : t ∈ reg) (hc : (!t.isConst && t.canBeConst) = true)
    (ho : occ ∈ t.occurences) : mkFinding occ ∈ emit reg := by
  rw [emit_eq_emitSpec]
  induction reg with
  | nil => cases ht
  | cons t2 rest ih =>
    rw [emitSpec_cons]
    rcases List.mem_cons.mp ht with heq | hmem
    · subst heq
      rw [hc]
      simp only [if_true]
      apply List.mem_append_left
      exact List.mem_map.mpr ⟨occ, ho, rfl⟩
    · cases hc2 : (!t2.isConst && t2.canBeConst) with
      | true => simp only [if_true]; exact List.mem_append_right _ (ih hmem)
      | false => simpa using ih hmem

/-! ### Fuel adequacy: the recursions are bounded by nesting depth -/

theorem depthE_pos (e : Node) : 1 ≤ depthE e := by
  cases e <;> (simp only [depthE]; omega)

mutual
theorem evalCbFuel_correct (fuel : Nat) (m : List (String × Bool)) (e : Node)
    (reg : Registry) (i : Bool) (h : depthE e ≤ fuel) :
    evalCbFuel fuel m e reg i = some (evalCb m e reg i) := by
  cases fuel with
  | zero => exact absurd h (by have := depthE_pos e; omega)
  | succ fuel =>
    cases e with
    | ident t => simp [evalCbFuel, evalCb]
    | stringLit t => simp [evalCbFuel, evalCb]
    | numLit v => simp [evalCbFuel, evalCb]
    | enumDecl n c x ms s ne => simp [evalCbFuel, evalCb]
    | exportAssignment e1 =>
      have h1 : depthE e1 ≤ fuel := by simp [depthE] at h; omega
      simp only [evalCbFuel]
      rw [evalCbFuel_correct fuel m e1 reg i h1]
      rfl
    | propAccess e1 nm =>
      have h1 : depthE e1 ≤ fuel := by simp [depthE] at h; omega
      simp only [evalCbFuel]
      rw [evalCbFuel_correct fuel m e1 reg false h1]
      by_cases hs : propSafe reg e1 nm <;> simp [hs, evalCb]
    | elemAccess e1 arg =>
      have h1 : depthE e1 ≤ fuel := by simp [depthE] at h; omega
      have h2 : depthOptE arg ≤ fuel := by simp [depthE] at h; omega
      simp only [evalCbFuel]
      rw [evalCbFuel_correct fuel m e1 (elemInvalidate reg e1 arg) false h1]
      cases arg with
      | none => by_cases hs : elemSafe reg e1 none <;> simp [hs, evalCb]
      | some a1 =>
        rw [show depthOptE (some a1) = depthE a1 from rfl] at h2
        by_cases hs : elemSafe reg e1 (some a1) <;>
          simp [hs, evalCb, evalCbFuel_correct fuel m a1 _ _ h2]
    | other cs =>
      have h1 : depthListE cs ≤ fuel := by simp [depthE] at h; omega
      simp only [evalCbFuel]
      rw [evalListFuel_correct fuel m cs reg i h1]
      rfl

theorem evalListFuel_correct (fuel : Nat) (m : List (String × Bool)) (cs : List Node)
    (reg : Registry) (i : Bool) (h : depthListE cs ≤ fuel) :
    evalListFuel fuel m cs reg i = some (evalList m cs reg i) := by
  cases cs with
  | nil => simp [evalListFuel, evalList]
  | cons c rest =>
    have h1 : depthE c ≤ fuel := by simp [depthListE] at h; omega
    have h2 : depthListE rest ≤ fuel := by simp [depthListE] at h; omega
    simp only [evalListFuel]
    rw [evalCbFuel_correct fuel m c reg i h1]
    dsimp only
    rw [evalListFuel_correct fuel m rest (evalCb m c reg i).1 (evalCb m c reg i).2 h2]
    rfl
end

mutual
theorem cbWFuel_correct (fuel : Nat) (parent : Option Node) (node : Node) (reg : Registry)
    (h : depthE node ≤ fuel) :
    cbWFuel fuel parent node reg = some (cbW parent node reg) := by
  cases fuel with
  | zero => exact absurd h (by have := depthE_pos node; omega)
  | succ fuel =>
    cases node with
    | ident t => simp [cbWFuel, cbW]
    | stringLit t => simp [cbWFuel, cbW]
    | numLit v => simp [cbWFuel, cbW]
    | enumDecl n c x ms s ne => simp [cbWFuel, cbW]
    | exportAssignment e1 =>
      have h1 : depthE e1 ≤ fuel := by simp [depthE] at h; omega
      simp only [cbWFuel]
      rw [cbWFuel_correct fuel (some (.exportAssignment e1)) e1 reg h1]
      rfl
    | propAccess e1 nm =>
      have h1 : depthE e1 ≤ fuel := by simp [depthE] at h; omega
      simp only [cbWFuel]
      rw [cbWFuel_correct fuel (some (.propAccess e1 nm)) e1 reg h1]
      rfl
    | elemAccess e1 arg =>
      have h1 : depthE e1 ≤ fuel := by simp [depthE] at h; omega
      have h2 : depthOptE arg ≤ fuel := by simp [depthE] at h; omega
      simp only [cbWFuel]
      rw [cbWFuel_correct fuel (some (.elemAccess e1 arg)) e1 reg h1]
      cases arg with
      | none => rfl
      | some a1 =>
        rw [show depthOptE (some a1) = depthE a1 from rfl] at h2
        simp only [Option.some.injEq]
        rw [cbWFuel_correct fuel (some (.elemAccess e1 (some a1))) a1
          (cbW (some (.elemAccess e1 (some a1))) e1 reg) h2]
        rfl
    | other cs =>
      have h1 : depthListE cs ≤ fuel := by simp [depthE] at h; omega
      simp only [cbWFuel]
      rw [cbWListFuel_correct fuel (.other cs) cs reg h1]
      rfl

theorem cbWListFuel_correct (fuel : Nat) (pn : Node) (cs : List Node) (reg : Registry)
    (h : depthListE cs ≤ fuel) :
    cbWListFuel fuel pn cs reg = some (cbWList pn cs reg) := by
  cases cs with
  | nil => simp [cbWListFuel, cbWList]
  | cons c rest =>
    have h1 : depthE c ≤ fuel := by simp [depthListE] at h; omega
    have h2 : depthListE rest ≤ fuel := by simp [depthListE] at h; omega
    simp only [cbWListFuel]
    rw [cbWFuel_correct fuel (some pn) c reg h1]
    dsimp only
    rw [cbWListFuel_correct fuel pn rest (cbW (some pn) c reg) h2]
    rfl
end

/-! ### Counting entries of one name, and full declaration effects -/

theorem countName_map (reg : Registry) (g : IEnum → IEnum)
    (hg : ∀ t, (g t).name = t.name) (a : String) :
    countName (reg.map g) a = countName reg a := by
  induction reg with
  | nil => rfl
  | cons t rest ih =>
    simp only [countName, List.map_cons, List.filter] at *
    rw [hg t]
    cases hp : (t.name == a) <;> simp [ih]

theorem countName_updateEnum (reg : Registry) (n : String) (f : IEnum → IEnum)
    (hf : ∀ t, (f t).name = t.name) (a : String) :
    countName (updateEnum reg n f) a = countName reg a := by
  refine countName_map reg _ (fun t => ?_) a
  by_cases h : t.name = n
  · have hb : (t.name == n) = true := by simp [h]
    simp [hb, hf]
  · have hb : (t.name == n) = false := by simp [h]
    simp [hb]

theorem countName_regSim {r1 r2 : Registry} (h : RegSim r1 r2) (a : String) :
    countName r2 a = countName r1 a := by
  induction h with
  | nil => rfl
  | cons hxy hrest ih =>
    rename_i x y l1 l2
    simp only [countName, List.filter] at *
    rw [hxy.1]
    cases hp : (x.name == a) <;> simp [ih]

theorem countName_none (reg : Registry) (a : String) (hg : getEnum reg a = none) :
    countName reg a = 0 := by
  have hall := List.find?_eq_none.mp hg
  simp only [countName]
  rw [List.filter_eq_nil_iff.mpr (fun t ht => hall t ht)]
  rfl

theorem countName_addEnum_fresh (reg : Registry) (name : String) (c x : Bool)
    (ms : List (String × Option Node)) (s ne : Nat) (hg : getEnum reg name = none) :
    countName (addEnum reg (.enumDecl name c x ms s ne)) name = countName reg name + 1 := by
  simp only [addEnum]
  rw [hg]
  simp [countName, List.filter_append, List.filter]

theorem countName_processMember (reg : Registry) (n : String) (m : String × Option Node)
    (a : String) : countName (processMember reg n m) a = countName reg a := by
  cases hg : getEnum reg n with
  | none => rw [processMember_eq_none reg n m hg]
  | some track =>
    rw [processMember_eq_some reg n m track hg]
    rw [countName_updateEnum _ n (fun t =>
      { t with
          canBeConst := t.canBeConst && (memberConst reg track m.2).2,
          members := mset t.members m.1 (memberConst reg track m.2).2 }) (fun _ => rfl) a]
    exact countName_regSim (regSim_memberConst reg track m.2) a

theorem countName_foldl_processMember (n : String) (ms : List (String × Option Node))
    (reg : Registry) (a : String) :
    countName (ms.foldl (fun r m => processMember r n m) reg) a = countName reg a := by
  induction ms generalizing reg with
  | nil => rfl
  | cons m rest ih =>
    simp only [List.foldl_cons]
    rw [ih, countName_processMember]

theorem countName_visitEnum (reg : Registry) (name : String) (c x : Bool)
    (ms : List (String × Option Node)) (s ne : Nat) (a : String) :
    countName (visitEnumDeclaration reg (.enumDecl name c x ms s ne)) a =
      countName (addEnum reg (.enumDecl name c x ms s ne)) a := by
  show countName (updateEnum (ms.foldl (fun r m => processMember r name m)
      (addEnum reg (.enumDecl name c x ms s ne)))
      name (fun t => { t with canBeConst := t.canBeConst && !x })) a = _
  rw [countName_updateEnum _ name
    (fun t => { t with canBeConst := t.canBeConst && !x }) (fun _ => rfl) a,
    countName_foldl_processMember]

theorem visitEnum_fresh (reg : Registry) (name : String) (c x : Bool)
    (ms : List (String × Option Node)) (s ne : Nat) (hg : getEnum reg name = none) :
    ∃ t2, getEnum (visitEnumDeclaration reg (.enumDecl name c x ms s ne)) name = some t2 ∧
      t2.name = name ∧ t2.isConst = c ∧
      t2.occurences = [Node.enumDecl name c x ms s ne] ∧
      (∀ k, (mget t2.members k).isSome ↔ k ∈ ms.map Prod.fst) ∧
      (x = true → t2.canBeConst = false) := by
  have hg0 : getEnum (addEnum reg (.enumDecl name c x ms s ne)) name =
      some { name := name, isConst := c,
             occurences := [Node.enumDecl name c x ms s ne],
             members := [], canBeConst := true } := by
    rw [getEnum_addEnum_self, hg]
  obtain ⟨t1, hg1, hn1, hc1, ho1, hm1, hcbc1⟩ := foldl_processMember_char name ms _ _ hg0
  refine ⟨{ t1 with canBeConst := t1.canBeConst && !x }, ?_, hn1, hc1, ho1, ?_, ?_⟩
  · show getEnum (updateEnum (ms.foldl (fun r m => processMember r name m)
        (addEnum reg (.enumDecl name c x ms s ne)))
        name (fun t => { t with canBeConst := t.canBeConst && !x })) name = _
    rw [getEnum_updateEnum_cb, if_pos rfl, hg1]
    rfl
  · intro k
    have := hm1 k
    simpa [mget] using this
  · intro hx
    subst hx
    simp

theorem visitEnum_existing (reg : Registry) (name : String) (c x : Bool)
    (ms : List (String × Option Node)) (s ne : Nat) (t : IEnum)
    (hg : getEnum reg name = some t) :
    ∃ t2, getEnum (visitEnumDeclaration reg (.enumDecl name c x ms s ne)) name = some t2 ∧
      t2.name = t.name ∧ t2.isConst = t.isConst ∧
      t2.occurences = t.occurences ++ [Node.enumDecl name c x ms s ne] ∧
      (∀ k, (mget t2.members k).isSome ↔
        ((mget t.members k).isSome ∨ k ∈ ms.map Prod.fst)) ∧
      (t.canBeConst = false → t2.canBeConst = false) ∧
      (x = true → t2.canBeConst = false) := by
  have hg0 : getEnum (addEnum reg (.enumDecl name c x ms s ne)) name =
      some { t with occurences := t.occurences ++ [Node.enumDecl name c x ms s ne] } := by
    rw [getEnum_addEnum_self, hg]
  obtain ⟨t1, hg1, hn1, hc1, ho1, hm1, hcbc1⟩ := foldl_processMember_char name ms _ _ hg0
  refine ⟨{ t1 with canBeConst := t1.canBeConst && !x }, ?_, hn1, hc1, ho1, ?_, ?_, ?_⟩
  · show getEnum (updateEnum (ms.foldl (fun r m => processMember r name m)
        (addEnum reg (.enumDecl name c x ms s ne)))
        name (fun t => { t with canBeConst := t.canBeConst && !x })) name = _
    rw [getEnum_updateEnum_cb, if_pos rfl, hg1]
    rfl
  · intro k
    simpa using hm1 k
  · intro hc
    simp [hcbc1 hc]
  · intro hx
    subst hx
    simp

/-! ### Bare-identifier member values -/

theorem memberConst_identInit (reg : Registry) (track : IEnum) (y : String)
    (hc : track.isConst = false) :
    memberConst reg track (some (.ident y)) = (reg, memTrue track.members y) := by
  unfold memberConst
  rw [hc]
  show isConstInitializer reg (.ident y) track.members = _
  unfold isConstInitializer
  rw [show evalCb track.members (.ident y) reg true
      = evalIdent track.members y reg true from rfl, evalIdent_eq]
  simp

theorem processMember_identInit (reg : Registry) (n : String) (track : IEnum)
    (hg : getEnum reg n = some track) (hc : track.isConst = false)
    (mname y : String) :
    getEnum (processMember reg n (mname, some (.ident y))) n =
      some { track with
               canBeConst := track.canBeConst && memTrue track.members y,
               members := mset track.members mname (memTrue track.members y) } := by
  rw [processMember_eq_some reg n (mname, some (.ident y)) track hg]
  rw [show ((mname, some (Node.ident y)) : String × Option Node).2
      = some (.ident y) from rfl]
  rw [memberConst_identInit reg track y hc]
  dsimp only
  rw [getEnum_updateEnum_cm, if_pos rfl, hg]
  rfl

theorem processMember_identInit_other (reg : Registry) (n : String) (track : IEnum)
    (hg : getEnum reg n = some track) (hc : track.isConst = false)
    (mname y b : String) (hb : b ≠ n) :
    getEnum (processMember reg n (mname, some (.ident y))) b = getEnum reg b := by
  rw [processMember_eq_some reg n (mname, some (.ident y)) track hg]
  rw [show ((mname, some (Node.ident y)) : String × Option Node).2
      = some (.ident y) from rfl]
  rw [memberConst_identInit reg track y hc]
  dsimp only
  rw [getEnum_updateEnum_cm, if_neg hb]

/-! ### The evaluator never resurrects the constant flag -/

mutual
theorem evalCb_snd_false (m : List (String × Bool)) (e : Node) (reg : Registry) :
    (evalCb m e reg false).2 = false := by
  cases e with
  | ident t =>
    show (evalIdent m t reg false).2 = false
    rw [evalIdent_eq]
    simp
  | stringLit t => rfl
  | numLit v => rfl
  | enumDecl n c x ms s ne => rfl
  | exportAssignment e1 => exact evalCb_snd_false m e1 reg
  | propAccess e1 nm =>
    simp only [evalCb]
    split
    · rfl
    · rw [evalIdent_eq, evalCb_snd_false m e1 reg]
      rfl
  | elemAccess e1 arg =>
    simp only [evalCb]
    split
    · rfl
    · cases arg with
      | none => exact evalCb_snd_false m e1 _
      | some a1 =>
        rw [evalCb_snd_false m e1 _]
        exact evalCb_snd_false m a1 _
  | other cs => exact evalList_snd_false m cs reg

theorem evalList_snd_false (m : List (String × Bool)) (cs : List Node) (reg : Registry) :
    (evalList m cs reg false).2 = false := by
  cases cs with
  | nil => rfl
  | cons c rest =>
    show (evalList m rest (evalCb m c reg false).1 (evalCb m c reg false).2).2 = false
    rw [evalCb_snd_false m c reg]
    exact evalList_snd_false m rest _
end

theorem countName_addEnum_existing (reg : Registry) (name : String) (c x : Bool)
    (ms : List (String × Option Node)) (s ne : Nat) (t : IEnum)
    (hg : getEnum reg name = some t) (a : String) :
    countName (addEnum reg (.enumDecl name c x ms s ne)) a = countName reg a := by
  simp only [addEnum]
  rw [hg]
  exact countName_updateEnum reg name
    (fun t => { t with occurences := t.occurences ++ [Node.enumDecl name c x ms s ne] })
    (fun _ => rfl) a

/-! ### Small evaluator corollaries used by the claim theorems -/

theorem evalCb_ident_eq (m : List (String × Bool)) (t : String) (reg : Registry) (i : Bool) :
    evalCb m (.ident t) reg i = (reg, i && memTrue m t) := by
  rw [show evalCb m (.ident t) reg i = evalIdent m t reg i from rfl, evalIdent_eq]

theorem evalCb_elemAccess_notSafe (m : List (String × Bool)) (e1 : Node) (arg : Option Node)
    (reg : Registry) (i : Bool) (hsafe : elemSafe reg e1 arg = false) :
    evalCb m (.elemAccess e1 arg) reg i =
      match arg with
      | some a => evalCb m a (evalCb m e1 (elemInvalidate reg e1 arg) false).1
          (evalCb m e1 (elemInvalidate reg e1 arg) false).2
      | none => evalCb m e1 (elemInvalidate reg e1 arg) false := by
  simp only [evalCb, hsafe, Bool.false_eq_true, if_false]
  cases arg <;> rfl

theorem getCBC_updateEnum_clear (reg : Registry) (n : String) (track : IEnum)
    (hg : getEnum reg n = some track) :
    getCBC (updateEnum reg n (fun t => { t with canBeConst := false })) n = some false := by
  rw [getCBC, getEnum_updateEnum_clear, if_pos rfl, hg]
  rfl

/-! ### Claim theorems -/

/-- C1 counterexample: in `enum A { X = 1 }; enum B { Y = A["Z"] }` the
index is a string literal naming an unknown member of the tracked enum
`A`; the claim says this access clears `A`'s `canBeConst`, but after the
run `A` is still eligible (`some true`), while the initializer is indeed
judged non-constant (so `B` ends ineligible). -/
theorem c1_counterexample :
    getCBC (walkAll [exDeclA, exDeclB_brZ]) "A" = some true ∧
    getCBC (walkAll [exDeclA, exDeclB_brZ]) "B" = some false := ⟨rfl, rfl⟩

/-- C1 (amended): for an indexed access `E[k]` in a member initializer
with `E` a plain identifier naming a tracked enum: when `k` is absent or
not a string literal, the tracked enum is permanently invalidated and
the expression is judged non-constant; when `k` is a string literal not
naming an already-constant member, the expression is judged non-constant
but the registry is left entirely unchanged (no invalidation). -/
theorem c1_amended :
    (∀ (m : List (String × Bool)) (reg : Registry) (E : String) (track : IEnum)
        (arg : Option Node) (i : Bool),
        getEnum reg E = some track →
        (∀ str, arg ≠ some (.stringLit str)) →
        (evalCb m (.elemAccess (.ident E) arg) reg i).2 = false ∧
        getCBC (evalCb m (.elemAccess (.ident E) arg) reg i).1 E = some false) ∧
    (∀ (m : List (String × Bool)) (reg : Registry) (E str : String) (track : IEnum)
        (i : Bool),
        getEnum reg E = some track →
        memTrue track.members str = false →
        evalCb m (.elemAccess (.ident E) (some (.stringLit str))) reg i = (reg, false)) := by
  constructor
  · intro m reg E track arg i hg harg
    have hsafe : elemSafe reg (.ident E) arg = false := by
      cases arg with
      | none => rfl
      | some a1 =>
        cases a1 with
        | stringLit str => exact absurd rfl (harg str)
        | ident t => rfl
        | numLit v => rfl
        | propAccess e2 n2 => rfl
        | elemAccess e2 g2 => rfl
        | exportAssignment e2 => rfl
        | enumDecl n2 c2 x2 ms2 s2 ne2 => rfl
        | other cs2 => rfl
    have hinv : elemInvalidate reg (.ident E) arg =
        updateEnum reg E (fun t => { t with canBeConst := false }) := by
      have hred : elemInvalidate reg (.ident E) arg =
          match getEnum reg E with
          | some _ => updateEnum reg E (fun t => { t with canBeConst := false })
          | none => reg := by
        cases arg with
        | none => rfl
        | some a1 =>
          cases a1 with
          | stringLit str => exact absurd rfl (harg str)
          | ident t => rfl
          | numLit v => rfl
          | propAccess e2 n2 => rfl
          | elemAccess e2 g2 => rfl
          | exportAssignment e2 => rfl
          | enumDecl n2 c2 x2 ms2 s2 ne2 => rfl
          | other cs2 => rfl
      rw [hred, hg]
    have hcleared : getCBC (elemInvalidate reg (.ident E) arg) E = some false := by
      rw [hinv]
      exact getCBC_updateEnum_clear reg E track hg
    rw [evalCb_elemAccess_notSafe m (.ident E) arg reg i hsafe]
    cases arg with
    | none =>
      constructor
      · exact evalCb_snd_false m (.ident E) _
      · rw [evalCb_ident_eq]
        exact hcleared
    | some a1 =>
      constructor
      · rw [evalCb_ident_eq]
        exact evalCb_snd_false m a1 _
      · rw [evalCb_ident_eq]
        dsimp only
        exact regSim_cbcMono (regSim_evalCb m a1 _ _) E hcleared
  · intro m reg E str track i hg hmem
    have hsafe : elemSafe reg (.ident E) (some (.stringLit str)) = false := by
      show (match getEnum reg E with
        | some track => memTrue track.members str
        | none => false) = false
      rw [hg]
      exact hmem
    rw [evalCb_elemAccess_notSafe m (.ident E) (some (.stringLit str)) reg i hsafe]
    rw [show elemInvalidate reg (.ident E) (some (.stringLit str)) = reg from rfl]
    rw [evalCb_ident_eq]
    simp [evalCb]

/-- C1 witness: on a live registry, evaluating the access with the
unknown string-literal index Z leaves the registry unchanged and judges
the expression non-constant. -/
theorem c1_amended_witness :
    (getEnum exRegLive "A" = some exEntryLive ∧
      memTrue exEntryLive.members "Z" = false) ∧
    evalCb [] (.elemAccess (.ident "A") (some (.stringLit "Z"))) exRegLive true
      = (exRegLive, false) :=
  ⟨⟨rfl, rfl⟩,
   c1_amended.2 [] exRegLive "A" "Z" exEntryLive true rfl rfl⟩

/-- C2 counterexample: in `enum A { X = 1 }` plus an expression `x.A`,
the identifier `A` names a tracked enum and appears as the property name
(not the object) of a property access; the claim says this clears `A`'s
`canBeConst`, but after the run `A` is still eligible. -/
theorem c2_counterexample :
    getCBC (walkAll [exDeclA, exUsePropName]) "A" = some true := rfl

/-- C2 (amended): the Usage Validator leaves the registry unchanged when
the identifier is any child of a property access (object or property
name), any child of an export assignment, or the base of an indexed
access with a string-literal index; in every other parent position an
identifier whose text names a tracked enum clears that enum's
`canBeConst`, and an untracked identifier changes nothing. -/
theorem c2_amended :
    (∀ (node e : Node) (nm : String) (reg : Registry),
        checkUsage node (some (.propAccess e nm)) reg = reg) ∧
    (∀ (node e : Node) (reg : Registry),
        checkUsage node (some (.exportAssignment e)) reg = reg) ∧
    (∀ (node e : Node) (str : String) (reg : Registry), beqNode e node = true →
        checkUsage node (some (.elemAccess e (some (.stringLit str)))) reg = reg) ∧
    (∀ (text : String) (parent : Option Node) (reg : Registry) (track : IEnum),
        usageSkip (.ident text) parent = false → getEnum reg text = some track →
        getCBC (checkUsage (.ident text) parent reg) text = some false) ∧
    (∀ (text : String) (parent : Option Node) (reg : Registry),
        getEnum reg text = none → checkUsage (.ident text) parent reg = reg) := by
  refine ⟨fun node e nm reg => rfl, fun node e reg => rfl, ?_, ?_, ?_⟩
  · intro node e str reg h
    unfold checkUsage
    rw [show usageSkip node (some (.elemAccess e (some (.stringLit str))))
        = beqNode e node from rfl, h]
    rfl
  · intro text parent reg track hskip hg
    unfold checkUsage
    rw [hskip]
    simp only [Bool.false_eq_true, if_false]
    show getCBC (usageClear (.ident text) reg) text = some false
    unfold usageClear
    dsimp only
    rw [hg]
    exact getCBC_updateEnum_clear reg text track hg
  · intro text parent reg hg
    unfold checkUsage
    cases hs : usageSkip (.ident text) parent with
    | true => simp
    | false =>
      simp only [Bool.false_eq_true, if_false]
      show usageClear (.ident text) reg = reg
      unfold usageClear
      dsimp only
      rw [hg]

/-- C2 witness: a tracked identifier whose parent is the source file is
not exempt, so its enum ends cleared. -/
theorem c2_amended_witness :
    (usageSkip (.ident "A") none = false ∧ getEnum exRegLive "A" = some exEntryLive) ∧
    getCBC (checkUsage (.ident "A") none exRegLive) "A" = some false :=
  ⟨⟨rfl, rfl⟩, c2_amended.2.2.2.1 "A" none exRegLive exEntryLive rfl rfl⟩

/-- C3 counterexample: `enum A { X }` (no member expressions, no
export, no const) plus a bare expression statement `A`: the claim says
`canBeConst` ends true and a fix is emitted, but the usage clears the
enum and no finding is produced. -/
theorem c3_counterexample :
    getCBC (walkAll [exDeclA_plain, exUseA]) "A" = some false ∧
    (run [exDeclA_plain, exUseA]).2 = [] := ⟨rfl, rfl⟩

/-- C3 (amended): for every enum name such that every declaration of it
has no member expressions, no export modifier and no const modifier, and
additionally no node of the tree can disqualify it (no identifier of
that text outside the exempt positions, formalised by `noDisq`), the run
ends with `canBeConst` true and a fix is emitted for every occurrence. -/
theorem c3_amended (tree : List Node) (a : String)
    (hok : ∀ n ∈ tree, noDisq a n = true)
    (hex : ∃ n ∈ tree, hasDeclOf a n = true) :
    ∃ t, getEnum (walkAll tree) a = some t ∧ t.canBeConst = true ∧ t.isConst = false ∧
      ∀ occ ∈ t.occurences, mkFinding occ ∈ (run tree).2 := by
  obtain ⟨t, hg, hc, hi⟩ := walkAll_eligiblePlus tree a hok hex
  refine ⟨t, hg, hc, hi, fun occ ho => ?_⟩
  show mkFinding occ ∈ emit (walkAll tree)
  exact mkFinding_mem_emit _ t occ (List.mem_of_find?_eq_some hg) (by simp [hc, hi]) ho

/-- C3 witness: a tree whose declaration `enum A { X }` sits inside a
nested node (not at top level) satisfies the amended hypotheses, and the
amended conclusion holds there. -/
theorem c3_amended_witness :
    ((∀ n ∈ exTreeNested, noDisq "A" n = true) ∧
      (∃ n ∈ exTreeNested, hasDeclOf "A" n = true)) ∧
    (∃ t, getEnum (walkAll exTreeNested) "A" = some t ∧ t.canBeConst = true ∧
      t.isConst = false ∧ ∀ occ ∈ t.occurences, mkFinding occ ∈ (run exTreeNested).2) :=
  ⟨⟨by decide, ⟨.other [exDeclA_plain], by simp [exTreeNested], by decide⟩⟩,
   c3_amended exTreeNested "A" (by decide) ⟨.other [exDeclA_plain], by simp [exTreeNested], by decide⟩⟩

/-- C4: `canBeConst` starts true at creation, and every operation of the
pass — processing a declaration, validating a usage, evaluating an
initializer, one full walk step, or any remainder of the run — preserves
a cleared flag: once `some false`, it stays `some false`. -/
theorem c4_canBeConst_monotone :
    (∀ (reg : Registry) (name : String) (c x : Bool) (ms : List (String × Option Node))
        (s ne : Nat), getEnum reg name = none →
        getCBC (addEnum reg (.enumDecl name c x ms s ne)) name = some true) ∧
    (∀ (reg : Registry) (node : Node) (a : String), getCBC reg a = some false →
        getCBC (visitEnumDeclaration reg node) a = some false) ∧
    (∀ (node : Node) (parent : Option Node) (reg : Registry) (a : String),
        getCBC reg a = some false → getCBC (checkUsage node parent reg) a = some false) ∧
    (∀ (reg : Registry) (init : Node) (m : List (String × Bool)) (a : String),
        getCBC reg a = some false → getCBC (isConstInitializer reg init m).1 a = some false) ∧
    (∀ (parent : Option Node) (node : Node) (reg : Registry) (a : String),
        getCBC reg a = some false → getCBC (cbW parent node reg) a = some false) ∧
    (∀ (pre post : List Node) (a : String), getCBC (walkAll pre) a = some false →
        getCBC (walkAll (pre ++ post)) a = some false) := by
  refine ⟨?_, ?_, ?_, ?_, ?_, ?_⟩
  · intro reg name c x ms s ne hg
    show (getEnum (addEnum reg (.enumDecl name c x ms s ne)) name).map
      (fun t => t.canBeConst) = some true
    rw [getEnum_addEnum_self, hg]
    rfl
  · exact fun reg node a h => cbcMono_visitEnum reg node a h
  · exact fun node parent reg a h => cbcMono_checkUsage node parent reg a h
  · exact fun reg init m a h => cbcMono_isConstInit reg init m a h
  · exact fun parent node reg a h => cbcMono_cbW parent node reg a h
  · intro pre post a h
    show getCBC ((pre ++ post).foldl (fun reg n => cbW none n reg) []) a = some false
    rw [List.foldl_append]
    exact cbcMono_foldl _ (fun r n => cbcMono_cbW none n r) post (walkAll pre) a h

/-- C4 witness: creation yields `some true` on a fresh registry, and a
usage check on an already-cleared registry keeps `some false`. -/
theorem c4_canBeConst_monotone_witness :
    (getEnum ([] : Registry) "A" = none ∧
      getCBC (addEnum [] (.enumDecl "A" false false [("X", none)] 0 6)) "A" = some true) ∧
    (getCBC exRegCleared "A" = some false ∧
      getCBC (checkUsage (.ident "A") none exRegCleared) "A" = some false) :=
  ⟨⟨rfl, c4_canBeConst_monotone.1 [] "A" false false [("X", none)] 0 6 rfl⟩,
   ⟨rfl, c4_canBeConst_monotone.2.2.1 (.ident "A") none exRegCleared "A" rfl⟩⟩

/-- C5: after the traversal, the emitted findings are exactly the
spec-side emitter — one finding per occurrence of every entry with
`isConst` false and `canBeConst` true, ranging from declaration start
to the end of the name token, with message `enum can be declared const`
and a zero-length insertion of `const ` at the declaration start; no
findings for any other entry. -/
theorem c5_emitter :
    (∀ reg : Registry, emit reg = emitSpec reg) ∧
    (∀ tree : List Node, (run tree).2 = emitSpec (walkAll tree)) :=
  ⟨emit_eq_emitSpec, fun tree => emit_eq_emitSpec (walkAll tree)⟩

/-- C6: processing two declarations of one name (a fresh one, then a
second) yields a single registry entry holding both occurrences in
order, whose member-map keys are the union of the member names of both
declarations, and whose `canBeConst` is false — and stays false for the
rest of the run — whenever either occurrence is exported. -/
theorem c6_merge (reg0 : Registry) (A : String) (c1 x1 c2 x2 : Bool)
    (ms1 ms2 : List (String × Option Node)) (s1 ne1 s2 ne2 : Nat)
    (hg : getEnum reg0 A = none)
    (_hdisj : ∀ k, k ∈ ms1.map Prod.fst → k ∉ ms2.map Prod.fst) :
    ∃ t2, getEnum (visitEnumDeclaration (visitEnumDeclaration reg0
          (.enumDecl A c1 x1 ms1 s1 ne1)) (.enumDecl A c2 x2 ms2 s2 ne2)) A = some t2 ∧
      countName (visitEnumDeclaration (visitEnumDeclaration reg0
          (.enumDecl A c1 x1 ms1 s1 ne1)) (.enumDecl A c2 x2 ms2 s2 ne2)) A = 1 ∧
      t2.occurences = [.enumDecl A c1 x1 ms1 s1 ne1, .enumDecl A c2 x2 ms2 s2 ne2] ∧
      (∀ k, (mget t2.members k).isSome ↔ (k ∈ ms1.map Prod.fst ∨ k ∈ ms2.map Prod.fst)) ∧
      ((x1 = true ∨ x2 = true) → t2.canBeConst = false ∧
        ∀ rest : List Node, getCBC (rest.foldl (fun r n => cbW none n r)
          (visitEnumDeclaration (visitEnumDeclaration reg0
            (.enumDecl A c1 x1 ms1 s1 ne1)) (.enumDecl A c2 x2 ms2 s2 ne2))) A
          = some false) := by
  obtain ⟨t1, hg1, hn1, hc1, ho1, hm1, hx1⟩ :=
    visitEnum_fresh reg0 A c1 x1 ms1 s1 ne1 hg
  obtain ⟨t2, hg2, hn2, hc2, ho2, hm2, hmono2, hx2⟩ :=
    visitEnum_existing _ A c2 x2 ms2 s2 ne2 t1 hg1
  refine ⟨t2, hg2, ?_, ?_, ?_, ?_⟩
  · rw [countName_visitEnum, countName_addEnum_existing _ A c2 x2 ms2 s2 ne2 t1 hg1,
      countName_visitEnum, countName_addEnum_fresh reg0 A c1 x1 ms1 s1 ne1 hg,
      countName_none reg0 A hg]
  · rw [ho2, ho1]
    rfl
  · intro k
    rw [hm2 k, hm1 k]
  · intro hx
    have hcbc : t2.canBeConst = false := by
      rcases hx with h1 | h2
      · exact hmono2 (hx1 h1)
      · exact hx2 h2
    refine ⟨hcbc, fun rest => ?_⟩
    have h0 : getCBC (visitEnumDeclaration (visitEnumDeclaration reg0
        (.enumDecl A c1 x1 ms1 s1 ne1)) (.enumDecl A c2 x2 ms2 s2 ne2)) A = some false := by
      rw [getCBC, hg2]
      simp [hcbc]
    exact cbcMono_foldl _ (fun r n => cbcMono_cbW none n r) rest _ A h0

/-- C6 witness: merging `enum A { X = 1 }` with `enum A { Y }` from an
empty registry gives one entry, both occurrences, keys X and Y, with the
export conclusion vacuous. -/
theorem c6_merge_witness :
    (getEnum ([] : Registry) "A" = none ∧
      (∀ k, k ∈ ([("X", some (Node.numLit 1))] : List (String × Option Node)).map Prod.fst →
        k ∉ ([("Y", (none : Option Node))] : List (String × Option Node)).map Prod.fst)) ∧
    (∃ t2, getEnum (visitEnumDeclaration (visitEnumDeclaration []
          (.enumDecl "A" false false [("X", some (.numLit 1))] 0 6))
          (.enumDecl "A" false false [("Y", none)] 20 26)) "A" = some t2 ∧
      countName (visitEnumDeclaration (visitEnumDeclaration []
          (.enumDecl "A" false false [("X", some (.numLit 1))] 0 6))
          (.enumDecl "A" false false [("Y", none)] 20 26)) "A" = 1 ∧
      t2.occurences = [.enumDecl "A" false false [("X", some (.numLit 1))] 0 6,
        .enumDecl "A" false false [("Y", none)] 20 26] ∧
      (∀ k, (mget t2.members k).isSome ↔
        (k ∈ ([("X", some (Node.numLit 1))] : List (String × Option Node)).map Prod.fst ∨
         k ∈ ([("Y", (none : Option Node))] : List (String × Option Node)).map Prod.fst)) ∧
      ((false = true ∨ false = true) → t2.canBeConst = false ∧
        ∀ rest : List Node, getCBC (rest.foldl (fun r n => cbW none n r)
          (visitEnumDeclaration (visitEnumDeclaration []
            (.enumDecl "A" false false [("X", some (.numLit 1))] 0 6))
            (.enumDecl "A" false false [("Y", none)] 20 26))) "A" = some false)) :=
  ⟨⟨rfl, by decide⟩,
   c6_merge [] "A" false false false false [("X", some (.numLit 1))] [("Y", none)]
     0 6 20 26 rfl (by decide)⟩

/-- C7 counterexample: in `const enum A { X = Y }` the member X's
initializer is a bare identifier naming no recorded-constant sibling
(the member map was empty), yet X is recorded constant, because the
const modifier short-circuits the evaluator. -/
theorem c7_counterexample :
    (getEnum (walkAll [exDeclA_const]) "A").map (fun t => mget t.members "X")
      = some (some true) ∧
    memTrue ([] : List (String × Bool)) "Y" = false := ⟨rfl, rfl⟩

/-- C7 (amended): for a member of an enum whose tracking entry is not
const-declared, a bare-identifier initializer records the member
constant exactly when the identifier names a sibling already recorded
constant at that time (an unknown or later sibling gives false), and
ANDs that value into `canBeConst` — never an error. -/
theorem c7_amended (reg : Registry) (n : String) (track : IEnum)
    (hg : getEnum reg n = some track) (hc : track.isConst = false) (mname y : String) :
    ∃ t2, getEnum (processMember reg n (mname, some (.ident y))) n = some t2 ∧
      mget t2.members mname = some (memTrue track.members y) ∧
      t2.canBeConst = (track.canBeConst && memTrue track.members y) := by
  refine ⟨{ track with
      canBeConst := track.canBeConst && memTrue track.members y,
      members := mset track.members mname (memTrue track.members y) },
    processMember_identInit reg n track hg hc mname y, ?_, rfl⟩
  show mget (mset track.members mname (memTrue track.members y)) mname
    = some (memTrue track.members y)
  rw [mget_mset, if_pos rfl]

/-- C7 witness: on a live entry with member map `X ↦ true`, the member
`Y = X` is recorded constant, and a later `Z = Q` would not be. -/
theorem c7_amended_witness :
    (getEnum exRegLive "A" = some exEntryLive ∧ exEntryLive.isConst = false) ∧
    (∃ t2, getEnum (processMember exRegLive "A" ("Y", some (.ident "X"))) "A" = some t2 ∧
      mget t2.members "Y" = some (memTrue exEntryLive.members "X") ∧
      t2.canBeConst = (exEntryLive.canBeConst && memTrue exEntryLive.members "X")) :=
  ⟨⟨rfl, rfl⟩, c7_amended exRegLive "A" exEntryLive rfl rfl "Y" "X"⟩

/-- C8: for `enum A { X = 1 }` followed by `enum B { Y = A.X }` and no
other usages, A stays eligible and B's member Y is recorded constant. -/
theorem c8_cross_enum :
    getCBC (walkAll [exDeclA, exDeclB_dotX]) "A" = some true ∧
    (getEnum (walkAll [exDeclA, exDeclB_dotX]) "B").map (fun t => mget t.members "Y")
      = some (some true) := ⟨rfl, rfl⟩

/-- C9: both recursions of the analysis are total and bounded by
nesting depth: with fuel at least the expression depth the fuel-bounded
evaluator never runs out and agrees with the total evaluator, and
likewise for the tree walk — no input makes either fail. -/
theorem c9_termination :
    (∀ (fuel : Nat) (m : List (String × Bool)) (e : Node) (reg : Registry) (i : Bool),
        depthE e ≤ fuel → evalCbFuel fuel m e reg i = some (evalCb m e reg i)) ∧
    (∀ (fuel : Nat) (parent : Option Node) (node : Node) (reg : Registry),
        depthE node ≤ fuel → cbWFuel fuel parent node reg = some (cbW parent node reg)) :=
  ⟨evalCbFuel_correct, cbWFuel_correct⟩

/-- C9 witness: depth-2 fuel suffices for a depth-2 expression, and
depth-1 fuel for a leaf declaration. -/
theorem c9_termination_witness :
    (depthE (.other [.numLit 1]) ≤ 2 ∧
      evalCbFuel 2 [] (.other [.numLit 1]) [] true
        = some (evalCb [] (.other [.numLit 1]) [] true)) ∧
    (depthE exDeclA ≤ 1 ∧ cbWFuel 1 none exDeclA [] = some (cbW none exDeclA [])) :=
  ⟨⟨by decide, c9_termination.1 2 [] (.other [.numLit 1]) [] true (by decide)⟩,
   ⟨by decide, c9_termination.2 1 none exDeclA [] (by decide)⟩⟩

/-- C10 counterexample: with `enum A { }` tracked and
`enum B { A = 1, Y = A }`, the member Y's bare-identifier initializer
has the text of the tracked enum A, yet Y is recorded constant (the
sibling member named A shadows the enum in the member map); A stays
eligible either way. -/
theorem c10_counterexample :
    (getEnum (walkAll [exDeclA_empty, exDeclB_shadow]) "B").map
      (fun t => mget t.members "Y") = some (some true) ∧
    getCBC (walkAll [exDeclA_empty, exDeclB_shadow]) "A" = some true := ⟨rfl, rfl⟩

/-- C10 (amended): a bare identifier in an initializer is resolved only
against the enclosing enum's member map (constant iff a sibling of that
text is recorded constant) and performs no registry mutation; the walk
hands enum declarations straight to the declaration processor without
descending; and processing a bare-identifier member never changes any
other enum's entry. -/
theorem c10_amended :
    (∀ (m : List (String × Bool)) (t : String) (reg : Registry) (i : Bool),
        evalCb m (.ident t) reg i = (reg, i && memTrue m t)) ∧
    (∀ (parent : Option Node) (n : String) (c x : Bool)
        (ms : List (String × Option Node)) (s ne : Nat) (reg : Registry),
        cbW parent (.enumDecl n c x ms s ne) reg =
          visitEnumDeclaration reg (.enumDecl n c x ms s ne)) ∧
    (∀ (reg : Registry) (n : String) (track : IEnum) (mname y b : String),
        getEnum reg n = some track → track.isConst = false → b ≠ n →
        getEnum (processMember reg n (mname, some (.ident y))) b = getEnum reg b) :=
  ⟨evalCb_ident_eq, fun _ _ _ _ _ _ _ _ => rfl,
   fun reg n track mname y b hg hc hb =>
     processMember_identInit_other reg n track hg hc mname y b hb⟩

/-- C10 witness: processing `Y = Q` on the live entry for A leaves the
entry for B (untracked here) unchanged. -/
theorem c10_amended_witness :
    (getEnum exRegLive "A" = some exEntryLive ∧ exEntryLive.isConst = false ∧
      "B" ≠ "A") ∧
    getEnum (processMember exRegLive "A" ("Y", some (.ident "Q"))) "B"
      = getEnum exRegLive "B" :=
  ⟨⟨rfl, rfl, by decide⟩,
   c10_amended.2.2 exRegLive "A" exEntryLive "Y" "Q" "B" rfl rfl (by decide)⟩

end PreferConstEnum
